import Mathlib

/-!
Verification of the lock-free intrusive doubly linked list
(`src/include/ut/lock_free_list.h`) under sequential (single-thread,
quiescent) semantics.

Modelling conventions:
* Machine integers are `Nat` with explicit `% 2 ^ w` where the C++ code
  masks or can overflow.  Bit operations of the source are translated to
  arithmetic: `x & (2^k - 1)` is `x % 2^k`, `x << k` is `x * 2^k`,
  `x >> k` is `x / 2^k`, and `|` of bit-disjoint fields is `+`.
* A node is identified by its slot index in the caller-supplied region
  (the C++ code converts between pointers and indices; `to_link`/`to_node`
  are the identity on indices here, with `to_node` returning `none` on the
  two sentinel values exactly as in the source).
* The shared memory of link words is a total function `Nat → Nat`
  (slot index to 64-bit word); `upd` is pointwise update.
* Sequential execution: a `compare_exchange` whose expected value was
  loaded from the same location with no intervening store succeeds, so
  such CAS steps are translated as plain stores; every CAS whose success
  genuinely depends on the state (guard checks, anchor CAS loops with
  observable failure) keeps its conditional.  Retry loops whose guard can
  fire are kept as fuel recursion on the retry budget.
-/

namespace LFL

/-! ### Constants (struct `Node`) -/

def VERSION_BITS_PER_LINK : Nat := 2

def TOTAL_VERSION_BITS : Nat := VERSION_BITS_PER_LINK * 2

def LINK_BITS : Nat := (64 - TOTAL_VERSION_BITS) / 2

def VERSION_MASK : Nat := 2 ^ VERSION_BITS_PER_LINK - 1

def NULL_PTR : Nat := 2 ^ LINK_BITS - 1

def DELETING_MARK : Nat := NULL_PTR - 1

def NULL_LINK : Nat := 2 ^ 64 - 1

def MAX_RETRIES : Nat := 100

/-! ### Link word packing (`pack_links`, `unpack_links`, `Link_pack`) -/

/-- Layout (64 bits): `next` in bits 34..63, `next_version` in bits 32..33,
`prev` in bits 2..31, `prev_version` in bits 0..1.  The source builds the
word with masks, shifts and `|` of bit-disjoint fields; written here
additively over `Nat`. -/
def pack_links (next prev next_version prev_version : Nat) : Nat :=
  (next % 2 ^ LINK_BITS) * 2 ^ (VERSION_BITS_PER_LINK + LINK_BITS + VERSION_BITS_PER_LINK)
    + (next_version % 2 ^ VERSION_BITS_PER_LINK) * 2 ^ (VERSION_BITS_PER_LINK + LINK_BITS)
    + (prev % 2 ^ LINK_BITS) * 2 ^ VERSION_BITS_PER_LINK
    + prev_version % 2 ^ VERSION_BITS_PER_LINK

structure Link_pack where
  next : Nat
  prev : Nat
  next_version : Nat
  prev_version : Nat
deriving DecidableEq, Repr

def unpack_links (links : Nat) : Link_pack :=
  { next := links / 2 ^ (VERSION_BITS_PER_LINK + LINK_BITS + VERSION_BITS_PER_LINK) % 2 ^ LINK_BITS
    prev := links / 2 ^ VERSION_BITS_PER_LINK % 2 ^ LINK_BITS
    next_version := links / 2 ^ (VERSION_BITS_PER_LINK + LINK_BITS) % 2 ^ VERSION_BITS_PER_LINK
    prev_version := links % 2 ^ VERSION_BITS_PER_LINK }

/-- Source `Node::is_null()`: the whole word equals `NULL_LINK`. -/
def node_is_null (w : Nat) : Bool := decide (w = NULL_LINK)

/-- Source `Link_pack::is_deleting()`: the `next` field is `DELETING_MARK`. -/
def link_is_deleting (d : Link_pack) : Bool := decide (d.next = DELETING_MARK)

/-! ### Basic arithmetic facts about the packing -/

theorem pack_links_lit (n p a b : Nat) :
    pack_links n p a b =
      (n % 1073741824) * 17179869184 + (a % 4) * 4294967296
        + (p % 1073741824) * 4 + b % 4 := rfl

theorem unpack_links_lit (w : Nat) :
    unpack_links w =
      ⟨w / 17179869184 % 1073741824, w / 4 % 1073741824, w / 4294967296 % 4, w % 4⟩ := rfl

theorem unpack_pack (n p a b : Nat) :
    unpack_links (pack_links n p a b) = ⟨n % 2 ^ 30, p % 2 ^ 30, a % 4, b % 4⟩ := by
  rw [pack_links_lit, unpack_links_lit]
  simp only [Link_pack.mk.injEq]
  refine ⟨?_, ?_, ?_, ?_⟩ <;> omega

/-- The reserved whole-word sentinel as a packed value: `pack_links` hits
`NULL_LINK` exactly on (`NULL_PTR`, `NULL_PTR`, 3, 3) mod field widths. -/
theorem pack_eq_null_iff (n p a b : Nat) :
    pack_links n p a b = NULL_LINK ↔
      n % 2 ^ 30 = NULL_PTR ∧ p % 2 ^ 30 = NULL_PTR ∧ a % 4 = 3 ∧ b % 4 = 3 := by
  rw [pack_links_lit]
  show _ = 2 ^ 64 - 1 ↔ _ % 2 ^ 30 = 2 ^ 30 - 1 ∧ _ % 2 ^ 30 = 2 ^ 30 - 1 ∧ _ ∧ _
  omega

/-! ### List state

`List<T, N>` holds the bounds, atomic `m_head`/`m_tail` anchors (slot
indices) and the relaxed `m_size` counter; the nodes live in the caller
slots.  `mem i` is the 64-bit link word of slot `i`. -/

structure ListState where
  mem : Nat → Nat
  head : Nat
  tail : Nat
  size : Nat

def upd (m : Nat → Nat) (i v : Nat) : Nat → Nat := fun j => if j = i then v else m j

/-- A fresh list over a fresh region: every `Node` default-initialises its
word to `NULL_LINK`; `m_head = m_tail = NULL_PTR`, `m_size = 0`. -/
def emptyList : ListState :=
  { mem := fun _ => NULL_LINK, head := NULL_PTR, tail := NULL_PTR, size := 0 }

/-- Source `to_node`: a link value names a slot unless it is one of the two
sentinels, in which case the source returns `nullptr`. -/
def to_node_opt (link : Nat) : Option Nat :=
  if link = NULL_PTR ∨ link = DELETING_MARK then none else some link

/-! ### `List::remove` (sequential)

The outer retry loop repeats only when the commit CAS fails, which cannot
happen sequentially (the expected value is the word just loaded), so the
loop body runs once.  The head/tail CAS loops reduce to the conditionals
below (on failure the loop breaks as soon as the observed anchor differs
from `index(item)`).  The neighbour fix-up CAS succeeds on its first
attempt once its guards pass. -/

/-- The tombstone installed by the commit CAS of `remove`: `next` becomes
`DELETING_MARK`, `prev` keeps the original predecessor, `next_version` is
incremented (mod `2^VERSION_BITS_PER_LINK`), `prev_version` unchanged. -/
def remove_tombstone (node_links : Nat) : Nat :=
  let d := unpack_links node_links
  pack_links DELETING_MARK d.prev ((d.next_version + 1) % 2 ^ VERSION_BITS_PER_LINK) d.prev_version

/-- Steps 1-6 of `remove` after the entry guards passed, given the
observed word `node_links` and its decoded `original_next`/`original_prev`
fields. -/
def remove_committed (s : ListState) (item node_links original_next original_prev : Nat) :
    ListState :=
  let node_link := item
  -- Step 1: commit CAS installs the tombstone
  let m1 := upd s.mem item (remove_tombstone node_links)
  let size1 := (s.size + (2 ^ 64 - 1)) % 2 ^ 64
  -- Step 2: head CAS loop when this was the head
  let h1 := if original_prev = NULL_PTR then
      (if s.head = node_link then original_next else s.head) else s.head
  -- Step 3: tail CAS loop when this was the tail
  let t1 := if original_next = NULL_PTR then
      (if s.tail = node_link then original_prev else s.tail) else s.tail
  -- Step 4: the predecessor next field skips this node (guards as in source)
  let m2 :=
    if original_prev ≠ NULL_PTR ∧ original_prev ≠ DELETING_MARK then
      let prev_links := m1 original_prev
      let pd := unpack_links prev_links
      if prev_links = NULL_LINK ∨ pd.next = DELETING_MARK then m1
      else if pd.next ≠ node_link then m1
      else upd m1 original_prev
        (pack_links original_next pd.prev
          ((pd.next_version + 1) % 2 ^ VERSION_BITS_PER_LINK) pd.prev_version)
    else m1
  -- Step 5: the successor prev field skips this node
  let m3 :=
    if original_next ≠ NULL_PTR ∧ original_next ≠ DELETING_MARK then
      let next_links := m2 original_next
      let nd := unpack_links next_links
      if next_links = NULL_LINK ∨ nd.next = DELETING_MARK then m2
      else if nd.prev ≠ node_link then m2
      else upd m2 original_next
        (pack_links nd.next original_prev nd.next_version
          ((nd.prev_version + 1) % 2 ^ VERSION_BITS_PER_LINK))
    else m2
  -- Step 6: finalize
  let m4 := upd m3 item NULL_LINK
  { mem := m4, head := h1, tail := t1, size := size1 }

def remove (s : ListState) (item : Nat) : ListState × Option Nat :=
  let node_links := s.mem item
  if node_links = NULL_LINK then (s, none)
  else
    let link_data := unpack_links node_links
    if link_data.next = DELETING_MARK then (s, none)
    else
      (remove_committed s item node_links link_data.next link_data.prev, some item)

/-! ### `List::push_front` / `List::push_back` (sequential)

The outer loop retries only when the head (resp. tail) anchor CAS fails,
which cannot happen sequentially; the inner old-head (old-tail) CAS loop
either observes `NULL_LINK` and takes the restore-and-fail path, or its
CAS succeeds on the first attempt. -/

def push_front (s : ListState) (item : Nat) : ListState × Bool :=
  let old_head_link := s.head
  let m1 := upd s.mem item (pack_links old_head_link NULL_PTR 0 0)
  -- head CAS from old_head_link to index(item) succeeds
  if old_head_link ≠ NULL_PTR then
    let old_head_links := m1 old_head_link
    if old_head_links = NULL_LINK then
      -- old head was removed: restore head, invalidate the new node, fail
      ({ s with mem := upd m1 item NULL_LINK, head := old_head_link }, false)
    else
      let d := unpack_links old_head_links
      let m2 := upd m1 old_head_link
        (pack_links d.next item d.next_version
          ((d.prev_version + 1) % 2 ^ VERSION_BITS_PER_LINK))
      let t2 := if s.tail = NULL_PTR then item else s.tail
      ({ mem := m2, head := item, tail := t2, size := (s.size + 1) % 2 ^ 64 }, true)
  else
    let t2 := if s.tail = NULL_PTR then item else s.tail
    ({ mem := m1, head := item, tail := t2, size := (s.size + 1) % 2 ^ 64 }, true)

def push_back (s : ListState) (item : Nat) : ListState × Bool :=
  let old_tail_link := s.tail
  let m1 := upd s.mem item (pack_links NULL_PTR old_tail_link 0 0)
  -- tail CAS from old_tail_link to index(item) succeeds
  if old_tail_link ≠ NULL_PTR then
    let old_tail_links := m1 old_tail_link
    if old_tail_links = NULL_LINK then
      ({ s with mem := upd m1 item NULL_LINK, tail := old_tail_link }, false)
    else
      let d := unpack_links old_tail_links
      let m2 := upd m1 old_tail_link
        (pack_links item d.prev
          ((d.next_version + 1) % 2 ^ VERSION_BITS_PER_LINK) d.prev_version)
      let h2 := if s.head = NULL_PTR then item else s.head
      ({ mem := m2, head := h2, tail := item, size := (s.size + 1) % 2 ^ 64 }, true)
  else
    let h2 := if s.head = NULL_PTR then item else s.head
    ({ mem := m1, head := h2, tail := item, size := (s.size + 1) % 2 ^ 64 }, true)

/-! ### `List::insert_after` / `List::insert_before` (sequential)

The outer while loop is kept as fuel recursion on the retry budget: its
`continue` paths (the far-neighbour guards) branch on the state.  The two
CAS steps succeed on their first attempt sequentially (the anchor word
is untouched between load and CAS provided the new item is a distinct
slot, which is how the container is used).  The retry-exhaustion path
of the inner do-while is unreachable sequentially and is elided. -/

/-- One iteration of the outer while loop of `insert_after`; `retry`
continues the loop (the `continue` statements of the source). -/
def insert_after_go (anchor new_item : Nat) (retry : ListState → ListState × Bool)
    (s : ListState) : ListState × Bool :=
  let node_links := s.mem anchor
  let link_data := unpack_links node_links
  let new_node_link := new_item
  if node_links = NULL_LINK ∨ link_data.next = DELETING_MARK then
    ({ s with mem := upd s.mem new_item NULL_LINK }, false)
  else
    let m1 := upd s.mem new_item (pack_links link_data.next anchor 0 0)
    -- anchor CAS: install new node on the next side, bump next_version
    let m2 := upd m1 anchor
      (pack_links new_node_link link_data.prev
        ((link_data.next_version + 1) % 2 ^ VERSION_BITS_PER_LINK) link_data.prev_version)
    if link_data.next ≠ NULL_PTR then
      let next_links := m2 link_data.next
      let nd := unpack_links next_links
      if next_links = NULL_LINK ∨ nd.next = DELETING_MARK then
        -- successor gone: restore the anchor word and retry the outer loop
        retry { s with mem := upd m2 anchor node_links }
      else if nd.prev ≠ anchor then
        retry { s with mem := upd m2 anchor node_links }
      else
        let m3 := upd m2 link_data.next
          (pack_links nd.next new_node_link nd.next_version
            ((nd.prev_version + 1) % 2 ^ VERSION_BITS_PER_LINK))
        ({ s with mem := m3, size := (s.size + 1) % 2 ^ 64 }, true)
    else
      let t := if s.tail = anchor then new_node_link else s.tail
      ({ s with mem := m2, tail := t, size := (s.size + 1) % 2 ^ 64 }, true)

def insert_after_loop (anchor new_item : Nat) : Nat → ListState → ListState × Bool
  | 0, s => ({ s with mem := upd s.mem new_item NULL_LINK }, false)
  | fuel + 1, s =>
    insert_after_go anchor new_item (insert_after_loop anchor new_item fuel) s

def insert_after (s : ListState) (anchor new_item : Nat) : ListState × Bool :=
  -- `if (node.is_null()) return false;` — before the new node is touched
  if s.mem anchor = NULL_LINK then (s, false)
  else insert_after_loop anchor new_item MAX_RETRIES s

/-- One iteration of the outer while loop of `insert_before`. -/
def insert_before_go (anchor new_item : Nat) (retry : ListState → ListState × Bool)
    (s : ListState) : ListState × Bool :=
  let node_links := s.mem anchor
  let link_data := unpack_links node_links
  let new_node_link := new_item
  if node_links = NULL_LINK ∨ link_data.next = DELETING_MARK then
    ({ s with mem := upd s.mem new_item NULL_LINK }, false)
  else
    let m1 := upd s.mem new_item (pack_links anchor link_data.prev 0 0)
    -- anchor CAS: install new node on the prev side, bump prev_version
    let m2 := upd m1 anchor
      (pack_links link_data.next new_node_link link_data.next_version
        ((link_data.prev_version + 1) % 2 ^ VERSION_BITS_PER_LINK))
    if link_data.prev ≠ NULL_PTR then
      let prev_links := m2 link_data.prev
      let pd := unpack_links prev_links
      if prev_links = NULL_LINK ∨ pd.next = DELETING_MARK then
        retry { s with mem := upd m2 anchor node_links }
      else if pd.next ≠ anchor then
        retry { s with mem := upd m2 anchor node_links }
      else
        let m3 := upd m2 link_data.prev
          (pack_links new_node_link pd.prev
            ((pd.next_version + 1) % 2 ^ VERSION_BITS_PER_LINK) pd.prev_version)
        ({ s with mem := m3, size := (s.size + 1) % 2 ^ 64 }, true)
    else
      let h := if s.head = anchor then new_node_link else s.head
      ({ s with mem := m2, head := h, size := (s.size + 1) % 2 ^ 64 }, true)

def insert_before_loop (anchor new_item : Nat) : Nat → ListState → ListState × Bool
  | 0, s => ({ s with mem := upd s.mem new_item NULL_LINK }, false)
  | fuel + 1, s =>
    insert_before_go anchor new_item (insert_before_loop anchor new_item fuel) s

def insert_before (s : ListState) (anchor new_item : Nat) : ListState × Bool :=
  insert_before_loop anchor new_item MAX_RETRIES s

/-! ### `List::find` (sequential)

The budget accounting follows the source: every iteration consumes one
retry in the loop condition, and the `NULL_LINK`/`DELETING` recovery path
consumes a second one before restarting from the head. -/

def findGo (s : ListState) (p : Nat → Bool) : Nat → Nat → Option Nat
  | 0, _ => none
  | fuel + 1, current =>
    if current = NULL_PTR ∨ current = DELETING_MARK then none
    else
      let links := s.mem current
      let link_data := unpack_links links
      if links = NULL_LINK ∨ link_data.next = DELETING_MARK then
        match fuel with
        | 0 => none
        | fuel' + 1 => findGo s p fuel' s.head
      else if p current then some current
      else findGo s p fuel link_data.next

def find (s : ListState) (p : Nat → Bool) : Option Nat :=
  findGo s p MAX_RETRIES s.head

/-! ### `List::pop_front` / `List::pop_back` (sequential) -/

def pop_front_loop : Nat → ListState → ListState × Option Nat
  | 0, s => (s, none)
  | fuel + 1, s =>
    if s.head = NULL_PTR then (s, none)
    else
      match remove s s.head with
      | (s', some it) => (s', some it)
      | (s', none) => pop_front_loop fuel s'

def pop_front (s : ListState) : ListState × Option Nat :=
  pop_front_loop MAX_RETRIES s

def pop_back_loop : Nat → ListState → ListState × Option Nat
  | 0, s => (s, none)
  | fuel + 1, s =>
    if s.tail = NULL_PTR then (s, none)
    else
      match remove s s.tail with
      | (s', some it) => (s', some it)
      | (s', none) => pop_back_loop fuel s'

def pop_back (s : ListState) : ListState × Option Nat :=
  pop_back_loop MAX_RETRIES s

/-! ### `List_iterator` (sequential)

An iterator is `(m_prev, m_current)` as optional node indices (the base
pointer is the state).  `operator++`/`operator--` return `none` when the
source throws `Iterator_invalidated` (repair budget exhausted); the
budget accounting mirrors the source: the guard of the repair loop consumes a
retry only when the first conjuncts hold, and the post-loop
`retries >= MAX_RETRIES` check throws exactly when the budget was fully
consumed. -/

structure Iter where
  prev : Option Nat
  current : Option Nat
deriving DecidableEq, Repr

/-- The drift-repair loop of `operator++` plus the final advance.  `nxt`
is the successor captured from the links loaded before the loop; `cur`,
`prv`, `links` are the loop-carried `m_current`, `m_prev` and the last
unpacked word. -/
def inc_loop (s : ListState) (nxt : Option Nat) :
    Nat → Option Nat → Option Nat → Link_pack → Option Iter
  | fuel, cur, prv, links =>
    if cur ≠ none ∧ to_node_opt links.prev ≠ prv then
      match fuel with
      | 0 => none
      | fuel + 1 =>
        match to_node_opt links.next with
        | none => inc_loop s nxt fuel none prv links
        | some c =>
          let raw := s.mem c
          if raw = NULL_LINK then some ⟨some c, none⟩
          else
            let links' := unpack_links raw
            inc_loop s nxt fuel (some c) (to_node_opt links'.prev) links'
    else
      if fuel = 0 then none else some ⟨cur, nxt⟩

def iter_inc (s : ListState) (it : Iter) : Option Iter :=
  match it.current with
  | none => some it
  | some c =>
    let raw := s.mem c
    if raw = NULL_LINK then some ⟨some c, none⟩
    else
      let links := unpack_links raw
      inc_loop s (to_node_opt links.next) MAX_RETRIES (some c) it.prev links

/-- The deleting-walk loop of `operator--` plus cycle detection and the
final step.  `cur` is the unchanged `m_current` of the iterator. -/
def dec_loop (s : ListState) (cur : Option Nat) :
    Nat → Option Nat → Link_pack → Option Iter
  | fuel, prv, links =>
    if links.next = DELETING_MARK ∧ prv ≠ none then
      match fuel with
      | 0 => none
      | fuel + 1 =>
        match to_node_opt links.prev with
        | none => some ⟨none, cur⟩
        | some q =>
          let raw := s.mem q
          if raw = NULL_LINK then some ⟨none, cur⟩
          else dec_loop s cur fuel (some q) (unpack_links raw)
    else
      if fuel = 0 then none
      else
        let p2 := to_node_opt links.prev
        if p2 = prv then some ⟨none, cur⟩
        else some ⟨p2, prv⟩

def iter_dec (s : ListState) (it : Iter) : Option Iter :=
  match it.prev with
  | none => some it
  | some p =>
    let raw := s.mem p
    if raw = NULL_LINK then some ⟨none, it.current⟩
    else dec_loop s it.current MAX_RETRIES (some p) (unpack_links raw)

def list_begin (s : ListState) : Iter :=
  if s.head ≠ NULL_PTR then ⟨none, to_node_opt s.head⟩
  else ⟨if s.tail ≠ NULL_PTR then to_node_opt s.tail else none, none⟩

def list_end (s : ListState) : Iter :=
  ⟨if s.tail ≠ NULL_PTR then to_node_opt s.tail else none, none⟩

/-- Forward traversal `begin() → end()`, collecting visited slot indices;
`none` when `operator++` throws or the fuel runs out. -/
def fwd_go (s : ListState) : Nat → Iter → Option (List Nat)
  | 0, _ => none
  | fuel + 1, it =>
    match it.current with
    | none => some []
    | some c =>
      match iter_inc s it with
      | none => none
      | some it' => (fwd_go s fuel it').map (fun l => c :: l)

def forward_traverse (s : ListState) (fuel : Nat) : Option (List Nat) :=
  fwd_go s fuel (list_begin s)

/-- Reverse traversal `rbegin() → rend()` with `std::reverse_iterator`
semantics: while the base iterator differs from `begin()` (comparison is
on `m_current`), decrement the base and visit its `m_current`. -/
def rev_go (s : ListState) : Nat → Iter → Option (List Nat)
  | 0, _ => none
  | fuel + 1, base =>
    if base.current = (list_begin s).current then some []
    else
      match iter_dec s base with
      | none => none
      | some base' =>
        match base'.current with
        | none => none
        | some c => (rev_go s fuel base').map (fun l => c :: l)

def reverse_traverse (s : ListState) (fuel : Nat) : Option (List Nat) :=
  rev_go s fuel (list_end s)

/-! ### The quiescent chain invariant

A quiescent list is described by the list `c` of slot indices reachable
from the head: `head` is the first entry, `tail` the last, the word of
each node packs its chain neighbours (with arbitrary version counters), and
every other in-range slot is finalised (`NULL_LINK`). -/

theorem NULL_PTR_lit : NULL_PTR = 1073741823 := rfl

theorem DELETING_MARK_lit : DELETING_MARK = 1073741822 := rfl

theorem NULL_LINK_lit : NULL_LINK = 18446744073709551615 := rfl

theorem upd_same (m : Nat → Nat) (i v : Nat) : upd m i v i = v := by simp [upd]

theorem upd_ne (m : Nat → Nat) (i v j : Nat) (h : j ≠ i) : upd m i v j = m j := by
  simp [upd, h]

def nodeNext (s : ListState) (i : Nat) : Nat := (unpack_links (s.mem i)).next

def nodePrev (s : ListState) (i : Nat) : Nat := (unpack_links (s.mem i)).prev

/-- The slots reachable from a link by following `next` fields, stopping
at a sentinel, with fuel. -/
def chainFrom (s : ListState) : Nat → Nat → List Nat
  | 0, _ => []
  | fuel + 1, cur =>
    if cur = NULL_PTR ∨ cur = DELETING_MARK then []
    else cur :: chainFrom s fuel (nodeNext s cur)

/-- The live nodes of a list over a region of `cap` slots: the slots
reachable from `head` (the fuel `cap` suffices for any valid chain). -/
def liveNodes (cap : Nat) (s : ListState) : List Nat := chainFrom s cap s.head

/-- Predicate `chainSeg s p c after`: the slots `c` form a consecutive doubly
linked segment in which the first node has `prev` field `p` and the
last node has as `next` field the head of whatever follows (`after` when `c`
exhausts the list).  Version counters are arbitrary. -/
def chainSeg (s : ListState) : Nat → List Nat → Nat → Prop
  | _, [], _ => True
  | p, i :: rest, after =>
    (∃ nv pv, s.mem i = pack_links (rest.headD after) p nv pv) ∧ chainSeg s i rest after

structure ChainInv (cap : Nat) (s : ListState) (c : List Nat) : Prop where
  nodup : c.Nodup
  bounded : ∀ i ∈ c, i < cap
  head_eq : s.head = c.headD NULL_PTR
  tail_eq : s.tail = c.getLastD NULL_PTR
  unlinked : ∀ i, i < cap → i ∉ c → s.mem i = NULL_LINK
  links : chainSeg s NULL_PTR c NULL_PTR

/-- The list abstraction: some chain describes the state. -/
def Inv (cap : Nat) (s : ListState) : Prop := ∃ c, ChainInv cap s c

/-! #### List bookkeeping helpers -/

theorem headD_append (l r : List Nat) (d : Nat) :
    (l ++ r).headD d = l.headD (r.headD d) := by cases l <;> simp

theorem headD_ne_nil (l : List Nat) (d d' : Nat) (h : l ≠ []) :
    l.headD d = l.headD d' := by cases l <;> simp_all

theorem headD_mem (l : List Nat) (d : Nat) (h : l ≠ []) : l.headD d ∈ l := by
  cases l <;> simp_all

theorem getLastD_cons_eq (a d : Nat) (l : List Nat) :
    (a :: l).getLastD d = l.getLastD a := List.getLastD_cons d a l

theorem getLastD_append_cons (l : List Nat) (a : Nat) (r : List Nat) (d : Nat) :
    (l ++ a :: r).getLastD d = r.getLastD a := by
  induction l generalizing d with
  | nil => exact getLastD_cons_eq a d r
  | cons x l ih => rw [List.cons_append, getLastD_cons_eq]; exact ih x

theorem getLastD_mem (l : List Nat) (d : Nat) (h : l ≠ []) : l.getLastD d ∈ l := by
  induction l generalizing d with
  | nil => exact absurd rfl h
  | cons x l ih =>
    rw [List.getLastD_cons]
    cases l with
    | nil => simp
    | cons y t => exact List.mem_cons_of_mem x (ih x (by simp))

theorem chainSeg_append (s : ListState) (l r : List Nat) (p after : Nat) :
    chainSeg s p (l ++ r) after ↔
      chainSeg s p l (r.headD after) ∧ chainSeg s (l.getLastD p) r after := by
  induction l generalizing p with
  | nil => simp [chainSeg]
  | cons i l ih =>
    simp only [List.cons_append, chainSeg, getLastD_cons_eq, List.append_eq]
    rw [headD_append, ih, and_assoc]

theorem chainSeg_congr (s s' : ListState) (c : List Nat) (p after : Nat)
    (hs : ∀ i ∈ c, s'.mem i = s.mem i) :
    chainSeg s' p c after ↔ chainSeg s p c after := by
  induction c generalizing p with
  | nil => simp [chainSeg]
  | cons i rest ih =>
    simp only [chainSeg]
    rw [hs i (by simp), ih i fun j hj => hs j (List.mem_cons_of_mem i hj)]

/-! #### Field-level consequences of the packing -/

theorem unpack_pack_lt (n p a b : Nat) (hn : n < 2 ^ 30) (hp : p < 2 ^ 30) :
    unpack_links (pack_links n p a b) = ⟨n, p, a % 4, b % 4⟩ := by
  rw [unpack_pack, Nat.mod_eq_of_lt hn, Nat.mod_eq_of_lt hp]

theorem pack_ne_null_of_next (n p a b : Nat) (hn : n < 2 ^ 30) (h : n ≠ NULL_PTR) :
    pack_links n p a b ≠ NULL_LINK := by
  intro hc
  rw [pack_eq_null_iff, Nat.mod_eq_of_lt hn] at hc
  exact h hc.1

theorem pack_ne_null_of_prev (n p a b : Nat) (hp : p < 2 ^ 30) (h : p ≠ NULL_PTR) :
    pack_links n p a b ≠ NULL_LINK := by
  intro hc
  rw [pack_eq_null_iff, Nat.mod_eq_of_lt hp] at hc
  exact h hc.2.1

/-- A chain neighbour value: `NULL_PTR` or an in-range slot index. -/
theorem nb_facts (cap x : Nat) (c : List Nat) (hcap : cap ≤ DELETING_MARK)
    (hb : ∀ i ∈ c, i < cap) (hx : x = NULL_PTR ∨ x ∈ c) :
    x < 2 ^ 30 ∧ x ≠ DELETING_MARK := by
  rcases hx with h | h
  · subst h; rw [NULL_PTR_lit, DELETING_MARK_lit]; omega
  · have := hb x h
    rw [DELETING_MARK_lit] at *
    omega

theorem member_facts (cap x : Nat) (c : List Nat) (hcap : cap ≤ DELETING_MARK)
    (hb : ∀ i ∈ c, i < cap) (hx : x ∈ c) :
    x < 2 ^ 30 ∧ x ≠ DELETING_MARK ∧ x ≠ NULL_PTR := by
  have := hb x hx
  rw [DELETING_MARK_lit] at hcap
  rw [DELETING_MARK_lit, NULL_PTR_lit]
  omega


set_option maxHeartbeats 1000000

theorem VB_pow : 2 ^ VERSION_BITS_PER_LINK = 4 := rfl

theorem remove_of_null (s : ListState) (item : Nat) (h : s.mem item = NULL_LINK) :
    remove s item = (s, none) := by simp [remove, h]

theorem remove_preserves (cap : Nat) (s : ListState) (c : List Nat) (item : Nat)
    (hcap : cap ≤ DELETING_MARK) (hinv : ChainInv cap s c) (hit : item < cap) :
    ∃ c', ChainInv cap (remove s item).1 c' := by
  by_cases hm : s.mem item = NULL_LINK
  · rw [remove_of_null s item hm]
    exact ⟨c, hinv⟩
  · have hmem : item ∈ c := by
      by_contra hn
      exact hm (hinv.unlinked item hit hn)
    obtain ⟨l, r, rfl⟩ := List.append_of_mem hmem
    obtain ⟨nodup, bounded, head_eq, tail_eq, unlinked, links⟩ := hinv
    rw [chainSeg_append] at links
    obtain ⟨hl, ⟨nv, pv, hw⟩, hr⟩ := links
    have hbl : ∀ i ∈ l, i < cap := fun i hi => bounded i (List.mem_append_left _ hi)
    have hbr : ∀ i ∈ r, i < cap := fun i hi =>
      bounded i (List.mem_append_right _ (List.mem_cons_of_mem _ hi))
    have hitf := member_facts cap item (l ++ item :: r) hcap bounded hmem
    have hitem30 := hitf.1
    have hitemD := hitf.2.1
    have hitemN := hitf.2.2
    have hPor : l.getLastD NULL_PTR = NULL_PTR ∨ l.getLastD NULL_PTR ∈ l := by
      cases l with
      | nil => exact Or.inl rfl
      | cons a t => exact Or.inr (getLastD_mem _ _ (by simp))
    have hNor : r.headD NULL_PTR = NULL_PTR ∨ r.headD NULL_PTR ∈ r := by
      cases r with
      | nil => exact Or.inl rfl
      | cons a t => exact Or.inr (headD_mem _ _ (by simp))
    have hPf := nb_facts cap (l.getLastD NULL_PTR) l hcap hbl hPor
    have hNf := nb_facts cap (r.headD NULL_PTR) r hcap hbr hNor
    have hu : unpack_links (s.mem item) =
        ⟨r.headD NULL_PTR, l.getLastD NULL_PTR, nv % 4, pv % 4⟩ := by
      rw [hw, unpack_pack_lt _ _ _ _ hNf.1 hPf.1]
    have h2 : remove s item =
        (remove_committed s item (s.mem item) (r.headD NULL_PTR) (l.getLastD NULL_PTR),
          some item) := by
      simp [remove, hu, hm]
      simpa using hNf.2
    rw [h2]
    -- Nodup decomposition
    have hnodup2 : (l ++ r).Nodup := by
      refine List.Nodup.sublist ?_ nodup
      exact List.Sublist.append_left ((List.Sublist.refl r).cons item) l
    have hitl : item ∉ l := by
      intro hc
      rcases List.nodup_append.1 nodup with ⟨-, -, hdisj⟩
      exact hdisj hc (List.mem_cons_self _ _)
    have hitr : item ∉ r := by
      rcases List.nodup_append.1 nodup with ⟨-, hcons, -⟩
      exact (List.nodup_cons.1 hcons).1
    rcases List.eq_nil_or_concat l with rfl | ⟨l', pl, rfl⟩
    · cases r with
      | nil =>
        have hhead : s.head = item := by simpa using head_eq
        have htail : s.tail = item := by simpa using tail_eq
        refine ⟨[], by simp, by simp, ?_, ?_, ?_, trivial⟩
        · simp [remove_committed, hhead]
        · simp [remove_committed, htail]
        · intro j hj hjn
          by_cases hji : j = item
          · subst hji; simp [remove_committed, upd]
          · simp [remove_committed, upd, hji]
            exact unlinked j hj (by simp [hji])
      | cons rh r' =>
        show ∃ c', ChainInv cap (remove_committed s item (s.mem item) rh NULL_PTR) c'
        have hhead : s.head = item := by simpa using head_eq
        obtain ⟨⟨nv2, pv2, hwr0⟩, hr'⟩ := hr
        have hwr : s.mem rh = pack_links (r'.headD NULL_PTR) item nv2 pv2 := hwr0
        have hrhf := member_facts cap rh (([] : List Nat) ++ item :: rh :: r') hcap bounded (by simp)
        have hrh_ne : rh ≠ item := fun hc => hitr (by simp [hc])
        have hbr' : ∀ i ∈ r', i < cap := fun i hi => hbr i (List.mem_cons_of_mem _ hi)
        have hN'or : r'.headD NULL_PTR = NULL_PTR ∨ r'.headD NULL_PTR ∈ r' := by
          cases r' with
          | nil => exact Or.inl rfl
          | cons a t => exact Or.inr (headD_mem _ _ (by simp))
        have hN'f := nb_facts cap (r'.headD NULL_PTR) r' hcap hbr' hN'or
        have hurh : unpack_links (s.mem rh) = ⟨r'.headD NULL_PTR, item, nv2 % 4, pv2 % 4⟩ := by
          rw [hwr, unpack_pack_lt _ _ _ _ hN'f.1 hitem30]
        have hrhnn : s.mem rh ≠ NULL_LINK := by
          rw [hwr]
          exact pack_ne_null_of_prev _ _ _ _ hitem30 hitemN
        have hnodupr : (rh :: r').Nodup := by simpa using hnodup2
        refine ⟨rh :: r', hnodupr, hbr, ?_, ?_, ?_, ?_⟩
        · -- head
          simp [remove_committed, hhead, upd]
        · -- tail
          simp [remove_committed, hrhf.2.2, tail_eq, getLastD_cons_eq]
        · -- unlinked
          intro j hj hjn
          by_cases hji : j = item
          · subst hji
            simp [remove_committed, upd]
          · have hjrh : j ≠ rh := fun hc => hjn (hc ▸ List.mem_cons_self _ _)
            have hjc : j ∉ ([] : List Nat) ++ item :: rh :: r' := by
              intro hc
              rcases (by simpa using hc : j = item ∨ j = rh ∨ j ∈ r') with h | h | h
              exacts [hji h, hjrh h, hjn (List.mem_cons_of_mem _ h)]
            have hN'D : r'.head?.getD NULL_PTR ≠ DELETING_MARK := by simpa using hN'f.2
            simp [remove_committed, upd, hji, hjrh, hrh_ne, hurh, hrhnn, hN'D, hrhf.2.1,
              hrhf.2.2, VB_pow]
            exact unlinked j hj hjc
        · -- links
          have hN'D : r'.head?.getD NULL_PTR ≠ DELETING_MARK := by simpa using hN'f.2
          have hmem_rh : (remove_committed s item (s.mem item) rh NULL_PTR).mem rh
              = pack_links (r'.headD NULL_PTR) NULL_PTR (nv2 % 4) ((pv2 % 4 + 1) % 4) := by
            simp [remove_committed, upd, hrh_ne, hrhf.2.1, hrhf.2.2, hurh, hrhnn, hN'D, VB_pow]
          have hmem_other : ∀ j, j ≠ item → j ≠ rh →
              (remove_committed s item (s.mem item) rh NULL_PTR).mem j = s.mem j := by
            intro j hji hjrh
            simp [remove_committed, upd, hji, hjrh, hrh_ne, hurh, hrhnn, hN'D, hrhf.2.1,
              hrhf.2.2, VB_pow]
          refine ⟨⟨nv2 % 4, (pv2 % 4 + 1) % 4, hmem_rh⟩, ?_⟩
          have hcong : ∀ i ∈ r', (remove_committed s item (s.mem item) rh NULL_PTR).mem i = s.mem i := by
            intro i hi
            have hii : i ≠ item := fun hc => hitr (List.mem_cons_of_mem _ (hc ▸ hi))
            have hirh : i ≠ rh := fun hc => (List.nodup_cons.1 hnodupr).1 (hc ▸ hi)
            exact hmem_other i hii hirh
          exact (chainSeg_congr s (remove_committed s item (s.mem item) rh NULL_PTR) r' rh NULL_PTR hcong).2 hr'
    · simp only [List.concat_eq_append] at hmem nodup bounded head_eq tail_eq unlinked hl hw
      simp only [List.concat_eq_append] at hbl hPor hPf hu h2 hnodup2 hitl ⊢
      have hPpl : (l' ++ [pl]).getLastD NULL_PTR = pl := getLastD_append_cons l' pl [] NULL_PTR
      rw [hPpl] at h2 hw hu hPor hPf ⊢
      rw [chainSeg_append] at hl
      obtain ⟨hl', ⟨nv2, pv2, hwpl0⟩, -⟩ := hl
      have hplmem : pl ∈ (l' ++ [pl]) ++ item :: r := by simp
      have hplf := member_facts cap pl _ hcap bounded hplmem
      have hpl_ne : pl ≠ item := fun hc => hitl (by simp [hc])
      have hbl' : ∀ i ∈ l', i < cap := fun i hi => hbl i (by simp [hi])
      have hP'or : l'.getLastD NULL_PTR = NULL_PTR ∨ l'.getLastD NULL_PTR ∈ l' := by
        cases l' with
        | nil => exact Or.inl rfl
        | cons a t => exact Or.inr (getLastD_mem _ _ (by simp))
      have hP'f := nb_facts cap (l'.getLastD NULL_PTR) l' hcap hbl' hP'or
      have hwpl : s.mem pl = pack_links item (l'.getLastD NULL_PTR) nv2 pv2 := hwpl0
      have hupl : unpack_links (s.mem pl) = ⟨item, l'.getLastD NULL_PTR, nv2 % 4, pv2 % 4⟩ := by
        rw [hwpl, unpack_pack_lt _ _ _ _ hitem30 hP'f.1]
      have hplnn : s.mem pl ≠ NULL_LINK := by
        rw [hwpl]
        exact pack_ne_null_of_next _ _ _ _ hitem30 hitemN
      have hshead : s.head = l'.headD pl := by
        rw [head_eq, headD_append, headD_append]
        rfl
      have hplinl' : pl ∉ l' := by
        have := List.nodup_append.1 (List.nodup_append.1 nodup).1
        exact fun hc => this.2.2 hc (by simp)
      cases r with
      | nil =>
        show ∃ c', ChainInv cap (remove_committed s item (s.mem item) NULL_PTR pl) c'
        have hstail : s.tail = item := by
          rw [tail_eq, getLastD_append_cons]
          rfl
        refine ⟨l' ++ [pl], by simpa using hnodup2, fun i hi => hbl i hi, ?_, ?_, ?_, ?_⟩
        · -- head
          have hh : (remove_committed s item (s.mem item) NULL_PTR pl).head = s.head := by
            simp [remove_committed, hplf.2.2]
          rw [hh, hshead]
          cases l' <;> simp
        · -- tail
          simp [remove_committed, hstail, hplf.2.1, hplf.2.2, hPpl]
        · -- unlinked
          intro j hj hjn
          by_cases hji : j = item
          · subst hji
            simp [remove_committed, upd]
          · have hjpl : j ≠ pl := fun hc => hjn (by simp [hc])
            have hjc : j ∉ (l' ++ [pl]) ++ item :: ([] : List Nat) := by
              intro hc
              rcases (by simpa using hc : j ∈ l' ∨ j = pl ∨ j = item) with h | h | h
              · exact hjn (by simpa using Or.inl h)
              · exact hjn (by simpa using Or.inr h)
              · exact hji h
            simp [remove_committed, upd, hji, hjpl, hpl_ne, hupl, hplnn, hitemD, hitemN,
              hplf.2.1, hplf.2.2, VB_pow]
            exact unlinked j hj hjc
        · -- links
          rw [chainSeg_append]
          have hmem_pl : (remove_committed s item (s.mem item) NULL_PTR pl).mem pl
              = pack_links NULL_PTR (l'.getLastD NULL_PTR) ((nv2 % 4 + 1) % 4) (pv2 % 4) := by
            simp [remove_committed, upd, hpl_ne, hupl, hplnn, hitemD, hitemN,
              hplf.2.1, hplf.2.2, VB_pow]
          have hmem_other : ∀ j, j ≠ item → j ≠ pl →
              (remove_committed s item (s.mem item) NULL_PTR pl).mem j = s.mem j := by
            intro j hji hjpl
            simp [remove_committed, upd, hji, hjpl, hpl_ne, hupl, hplnn, hitemD, hitemN,
              hplf.2.1, hplf.2.2, VB_pow]
          refine ⟨?_, ⟨(nv2 % 4 + 1) % 4, pv2 % 4, hmem_pl⟩, trivial⟩
          have hcong : ∀ i ∈ l',
              (remove_committed s item (s.mem item) NULL_PTR pl).mem i = s.mem i := by
            intro i hi
            have hii : i ≠ item := fun hc => hitl (by simp [hc ▸ hi])
            have hipl : i ≠ pl := fun hc => hplinl' (hc ▸ hi)
            exact hmem_other i hii hipl
          exact (chainSeg_congr s _ l' NULL_PTR _ hcong).2 hl'
      | cons rh r' =>
        show ∃ c', ChainInv cap (remove_committed s item (s.mem item) rh pl) c'
        obtain ⟨⟨nv3, pv3, hwr0⟩, hr'⟩ := hr
        have hwr : s.mem rh = pack_links (r'.headD NULL_PTR) item nv3 pv3 := hwr0
        have hrhf := member_facts cap rh ((l' ++ [pl]) ++ item :: rh :: r') hcap bounded (by simp)
        have hrh_ne : rh ≠ item := fun hc => hitr (by simp [hc])
        have hrh_pl : rh ≠ pl := by
          intro hc
          rcases List.nodup_append.1 nodup with ⟨-, -, hdisj⟩
          exact hdisj (by simp [hc] : pl ∈ l' ++ [pl]) (by simp [hc.symm])
        have hbr' : ∀ i ∈ r', i < cap := fun i hi => hbr i (List.mem_cons_of_mem _ hi)
        have hN'or : r'.headD NULL_PTR = NULL_PTR ∨ r'.headD NULL_PTR ∈ r' := by
          cases r' with
          | nil => exact Or.inl rfl
          | cons a t => exact Or.inr (headD_mem _ _ (by simp))
        have hN'f := nb_facts cap (r'.headD NULL_PTR) r' hcap hbr' hN'or
        have hurh : unpack_links (s.mem rh) = ⟨r'.headD NULL_PTR, item, nv3 % 4, pv3 % 4⟩ := by
          rw [hwr, unpack_pack_lt _ _ _ _ hN'f.1 hitem30]
        have hrhnn : s.mem rh ≠ NULL_LINK := by
          rw [hwr]
          exact pack_ne_null_of_prev _ _ _ _ hitem30 hitemN
        have hN'D : r'.head?.getD NULL_PTR ≠ DELETING_MARK := by simpa using hN'f.2
        have hstail : s.tail = r'.getLastD rh := by
          rw [tail_eq, getLastD_append_cons, getLastD_cons_eq]
        -- memory characterisation
        have hmem_pl : (remove_committed s item (s.mem item) rh pl).mem pl
            = pack_links rh (l'.getLastD NULL_PTR) ((nv2 % 4 + 1) % 4) (pv2 % 4) := by
          simp [remove_committed, upd, hpl_ne, hrh_pl, Ne.symm hrh_pl, hrh_ne, hupl, hurh,
            hplnn, hrhnn, hitemD, hitemN, hplf.2.1, hplf.2.2, hrhf.2.1, hrhf.2.2, hN'D, VB_pow]
        have hmem_rh : (remove_committed s item (s.mem item) rh pl).mem rh
            = pack_links (r'.headD NULL_PTR) pl (nv3 % 4) ((pv3 % 4 + 1) % 4) := by
          simp [remove_committed, upd, hpl_ne, hrh_pl, Ne.symm hrh_pl, hrh_ne, hupl, hurh,
            hplnn, hrhnn, hitemD, hitemN, hplf.2.1, hplf.2.2, hrhf.2.1, hrhf.2.2, hN'D, VB_pow]
        have hmem_other : ∀ j, j ≠ item → j ≠ pl → j ≠ rh →
            (remove_committed s item (s.mem item) rh pl).mem j = s.mem j := by
          intro j hji hjpl hjrh
          simp [remove_committed, upd, hji, hjpl, hjrh, hpl_ne, hrh_pl, hrh_ne, hupl, hurh,
            hplnn, hrhnn, hitemD, hitemN, hplf.2.1, hplf.2.2, hrhf.2.1, hrhf.2.2, hN'D, VB_pow]
        refine ⟨(l' ++ [pl]) ++ rh :: r', by simpa using hnodup2, fun i hi => ?_, ?_, ?_, ?_, ?_⟩
        · -- bounded
          rcases (by simpa using hi : i ∈ l' ∨ i = pl ∨ i = rh ∨ i ∈ r') with h | h | h | h
          · exact hbl i (by simpa using Or.inl h)
          · exact hbl i (by simpa using Or.inr h)
          · subst h; exact hbr i (by simp)
          · exact hbr i (by simp [h])
        · -- head
          have hh : (remove_committed s item (s.mem item) rh pl).head = s.head := by
            simp [remove_committed, hplf.2.2]
          rw [hh, hshead]
          cases l' <;> simp
        · -- tail
          have ht : (remove_committed s item (s.mem item) rh pl).tail = s.tail := by
            simp [remove_committed, hrhf.2.2]
          rw [ht, hstail, getLastD_append_cons]
        · -- unlinked
          intro j hj hjn
          by_cases hji : j = item
          · subst hji
            simp [remove_committed, upd]
          · have hjpl : j ≠ pl := fun hc => hjn (by simp [hc])
            have hjrh : j ≠ rh := fun hc => hjn (by simp [hc])
            have hjc : j ∉ (l' ++ [pl]) ++ item :: rh :: r' := by
              intro hc
              rcases (by simpa using hc : j ∈ l' ∨ j = pl ∨ j = item ∨ j = rh ∨ j ∈ r') with h | h | h | h | h
              · exact hjn (by simp [h])
              · exact hjn (by simp [h])
              · exact hji h
              · exact hjrh h
              · exact hjn (by simp [h])
            rw [hmem_other j hji hjpl hjrh]
            exact unlinked j hj hjc
        · -- links
          rw [chainSeg_append, chainSeg_append]
          refine ⟨⟨?_, ⟨(nv2 % 4 + 1) % 4, pv2 % 4, ?_⟩, trivial⟩, ?_⟩
          · -- segment l' unchanged
            have hcong : ∀ i ∈ l',
                (remove_committed s item (s.mem item) rh pl).mem i = s.mem i := by
              intro i hi
              have hii : i ≠ item := fun hc => hitl (by simp [hc ▸ hi])
              have hipl : i ≠ pl := fun hc => hplinl' (hc ▸ hi)
              have hirh : i ≠ rh := by
                intro hc
                rcases List.nodup_append.1 nodup with ⟨-, -, hdisj⟩
                exact hdisj (by simp [hi] : i ∈ l' ++ [pl]) (by simp [hc])
              exact hmem_other i hii hipl hirh
            exact (chainSeg_congr s _ l' NULL_PTR _ hcong).2 hl'
          · -- pl now points at rh
            exact hmem_pl
          · -- rh now points back at pl
            rw [getLastD_append_cons]
            refine ⟨⟨nv3 % 4, (pv3 % 4 + 1) % 4, ?_⟩, ?_⟩
            · exact hmem_rh
            · have hcong : ∀ i ∈ r',
                  (remove_committed s item (s.mem item) rh pl).mem i = s.mem i := by
                intro i hi
                have hii : i ≠ item := fun hc => hitr (List.mem_cons_of_mem _ (hc ▸ hi))
                have hirh : i ≠ rh := by
                  intro hc
                  rcases List.nodup_append.1 nodup with ⟨-, hcons, -⟩
                  exact ((List.nodup_cons.1 (List.nodup_cons.1 hcons).2).1) (hc ▸ hi)
                have hipl : i ≠ pl := by
                  intro hc
                  rcases List.nodup_append.1 nodup with ⟨-, -, hdisj⟩
                  exact hdisj (by simp [hc] : i ∈ l' ++ [pl]) (by simp [hi])
                exact hmem_other i hii hipl hirh
              exact (chainSeg_congr s _ r' rh NULL_PTR hcong).2 hr'

theorem push_front_preserves (cap : Nat) (s : ListState) (c : List Nat) (item : Nat)
    (hcap : cap ≤ DELETING_MARK) (hinv : ChainInv cap s c) (hit : item < cap)
    (hfresh : item ∉ c) :
    ∃ c', ChainInv cap (push_front s item).1 c' := by
  obtain ⟨nodup, bounded, head_eq, tail_eq, unlinked, links⟩ := hinv
  have hitf := member_facts cap item (item :: c) hcap
    (by intro i hi; rcases List.mem_cons.1 hi with h | h; exacts [h ▸ hit, bounded i h]) (by simp)
  cases c with
  | nil =>
    have hhead : s.head = NULL_PTR := head_eq
    have htail : s.tail = NULL_PTR := tail_eq
    refine ⟨[item], by simp, by simpa using hit, ?_, ?_, ?_, ?_⟩
    · simp [push_front, hhead]
    · simp [push_front, hhead, htail]
    · intro j hj hjn
      have hji : j ≠ item := by simpa using hjn
      simp [push_front, hhead, upd, hji]
      exact unlinked j hj (by simp)
    · refine ⟨⟨0, 0, ?_⟩, trivial⟩
      simp [push_front, hhead, upd]
  | cons hd rest =>
    have hhead : s.head = hd := head_eq
    obtain ⟨⟨nv, pv, hwh0⟩, hrest⟩ := links
    have hwh : s.mem hd = pack_links (rest.headD NULL_PTR) NULL_PTR nv pv := hwh0
    have hhdf := member_facts cap hd (hd :: rest) hcap bounded (by simp)
    have hhd_ne : hd ≠ item := fun hc => hfresh (by simp [hc])
    have hbrest : ∀ i ∈ rest, i < cap := fun i hi => bounded i (List.mem_cons_of_mem _ hi)
    have hNor : rest.headD NULL_PTR = NULL_PTR ∨ rest.headD NULL_PTR ∈ rest := by
      cases rest with
      | nil => exact Or.inl rfl
      | cons a t => exact Or.inr (headD_mem _ _ (by simp))
    have hNf := nb_facts cap (rest.headD NULL_PTR) rest hcap hbrest hNor
    have hm1hd : upd s.mem item (pack_links s.head NULL_PTR 0 0) hd = s.mem hd :=
      upd_ne _ _ _ _ hhd_ne
    by_cases halias : s.mem hd = NULL_LINK
    · -- restore-and-fail path: old head observed as removed
      refine ⟨hd :: rest, nodup, bounded, ?_, ?_, ?_, ?_⟩
      · simp [push_front, hhead, hhdf.2.2, upd, hhd_ne, halias]
      · simp [push_front, hhead, hhdf.2.2, upd, hhd_ne, halias, tail_eq]
      · intro j hj hjn
        by_cases hji : j = item
        · subst hji
          simp [push_front, hhead, hhdf.2.2, upd, hhd_ne, halias]
        · simp [push_front, hhead, hhdf.2.2, upd, hhd_ne, halias, hji]
          exact unlinked j hj hjn
      · have hcong : ∀ i ∈ hd :: rest,
            (push_front s item).1.mem i = s.mem i := by
          intro i hi
          have hii : i ≠ item := fun hc => hfresh (hc ▸ hi)
          simp [push_front, hhead, hhdf.2.2, upd, hhd_ne, halias, hii]
        exact (chainSeg_congr s _ (hd :: rest) NULL_PTR NULL_PTR hcong).2 ⟨⟨nv, pv, hwh0⟩, hrest⟩
    · -- success path
      have hu : unpack_links (s.mem hd) =
          ⟨rest.headD NULL_PTR, NULL_PTR, nv % 4, pv % 4⟩ := by
        rw [hwh, unpack_pack_lt _ _ _ _ hNf.1 (by rw [NULL_PTR_lit]; omega)]
      have hstail : s.tail = rest.getLastD hd := by
        rw [tail_eq, getLastD_cons_eq]
      have htail_ne : s.tail ≠ NULL_PTR := by
        rw [tail_eq]
        exact (member_facts cap _ (hd :: rest) hcap bounded
          (getLastD_mem _ _ (by simp))).2.2
      have hmem_item : (push_front s item).1.mem item = pack_links hd NULL_PTR 0 0 := by
        simp [push_front, hhead, hhdf.2.2, upd, hhd_ne, halias, hu, Ne.symm hhd_ne]
      have hmem_hd : (push_front s item).1.mem hd =
          pack_links (rest.headD NULL_PTR) item (nv % 4) ((pv % 4 + 1) % 4) := by
        simp [push_front, hhead, hhdf.2.2, upd, hhd_ne, halias, hu, VB_pow]
      have hmem_other : ∀ j, j ≠ item → j ≠ hd → (push_front s item).1.mem j = s.mem j := by
        intro j hji hjhd
        simp [push_front, hhead, hhdf.2.2, upd, hhd_ne, halias, hu, hji, hjhd]
      refine ⟨item :: hd :: rest, List.nodup_cons.2 ⟨hfresh, nodup⟩, ?_, ?_, ?_, ?_, ?_⟩
      · intro i hi
        rcases List.mem_cons.1 hi with h | h
        exacts [h ▸ hit, bounded i h]
      · simp [push_front, hhead, hhdf.2.2, halias, upd, hhd_ne]
      · have ht : (push_front s item).1.tail = s.tail := by
          simp [push_front, hhead, hhdf.2.2, halias, upd, hhd_ne, htail_ne]
        rw [ht, hstail, getLastD_cons_eq, getLastD_cons_eq]
      · intro j hj hjn
        have hji : j ≠ item := fun hc => hjn (by simp [hc])
        have hjhd : j ≠ hd := fun hc => hjn (by simp [hc])
        rw [hmem_other j hji hjhd]
        exact unlinked j hj (fun hc => hjn (by simp [List.mem_cons.1 hc]))
      · refine ⟨⟨0, 0, hmem_item⟩, ⟨nv % 4, (pv % 4 + 1) % 4, hmem_hd⟩, ?_⟩
        have hcong : ∀ i ∈ rest, (push_front s item).1.mem i = s.mem i := by
          intro i hi
          have hii : i ≠ item := fun hc => hfresh (by simp [hc ▸ hi])
          have hihd : i ≠ hd := fun hc => (List.nodup_cons.1 nodup).1 (hc ▸ hi)
          exact hmem_other i hii hihd
        exact (chainSeg_congr s _ rest hd NULL_PTR hcong).2 hrest

theorem push_back_preserves (cap : Nat) (s : ListState) (c : List Nat) (item : Nat)
    (hcap : cap ≤ DELETING_MARK) (hinv : ChainInv cap s c) (hit : item < cap)
    (hfresh : item ∉ c) :
    ∃ c', ChainInv cap (push_back s item).1 c' := by
  obtain ⟨nodup, bounded, head_eq, tail_eq, unlinked, links⟩ := hinv
  rcases List.eq_nil_or_concat c with rfl | ⟨c₀, tl, rfl⟩
  · have hhead : s.head = NULL_PTR := head_eq
    have htail : s.tail = NULL_PTR := tail_eq
    refine ⟨[item], by simp, by simpa using hit, ?_, ?_, ?_, ?_⟩
    · simp [push_back, hhead, htail]
    · simp [push_back, htail]
    · intro j hj hjn
      have hji : j ≠ item := by simpa using hjn
      simp [push_back, htail, upd, hji]
      exact unlinked j hj (by simp)
    · refine ⟨⟨0, 0, ?_⟩, trivial⟩
      simp [push_back, htail, upd]
  · simp only [List.concat_eq_append] at nodup bounded head_eq tail_eq unlinked links
    simp only [List.concat_eq_append] at hfresh ⊢
    have htl : (c₀ ++ [tl]).getLastD NULL_PTR = tl := getLastD_append_cons c₀ tl [] NULL_PTR
    have htail : s.tail = tl := by rw [tail_eq, htl]
    rw [chainSeg_append] at links
    obtain ⟨hc₀, ⟨nv, pv, hwt0⟩, -⟩ := links
    have hwt : s.mem tl = pack_links NULL_PTR (c₀.getLastD NULL_PTR) nv pv := hwt0
    have htlf := member_facts cap tl (c₀ ++ [tl]) hcap bounded (by simp)
    have htl_ne : tl ≠ item := fun hc => hfresh (by simp [hc])
    have hbc₀ : ∀ i ∈ c₀, i < cap := fun i hi => bounded i (by simp [hi])
    have hP'or : c₀.getLastD NULL_PTR = NULL_PTR ∨ c₀.getLastD NULL_PTR ∈ c₀ := by
      cases c₀ with
      | nil => exact Or.inl rfl
      | cons a t => exact Or.inr (getLastD_mem _ _ (by simp))
    have hP'f := nb_facts cap (c₀.getLastD NULL_PTR) c₀ hcap hbc₀ hP'or
    have htlinc₀ : tl ∉ c₀ := by
      have := List.nodup_append.1 nodup
      exact fun hc => this.2.2 hc (by simp)
    have hshead : s.head = c₀.headD tl := by
      rw [head_eq, headD_append]
      rfl
    by_cases halias : s.mem tl = NULL_LINK
    · -- restore-and-fail path: old tail observed as removed
      refine ⟨c₀ ++ [tl], nodup, bounded, ?_, ?_, ?_, ?_⟩
      · simp [push_back, htail, htlf.2.2, upd, htl_ne, halias, head_eq]
      · simp [push_back, htail, htlf.2.2, upd, htl_ne, halias, tail_eq]
      · intro j hj hjn
        by_cases hji : j = item
        · subst hji
          simp [push_back, htail, htlf.2.2, upd, htl_ne, halias]
        · simp [push_back, htail, htlf.2.2, upd, htl_ne, halias, hji]
          exact unlinked j hj hjn
      · have hcong : ∀ i ∈ c₀ ++ [tl], (push_back s item).1.mem i = s.mem i := by
          intro i hi
          have hii : i ≠ item := fun hc => hfresh (hc ▸ hi)
          simp [push_back, htail, htlf.2.2, upd, htl_ne, halias, hii]
        refine (chainSeg_congr s _ (c₀ ++ [tl]) NULL_PTR NULL_PTR hcong).2 ?_
        rw [chainSeg_append]
        exact ⟨hc₀, ⟨nv, pv, hwt0⟩, trivial⟩
    · -- success path
      have hu : unpack_links (s.mem tl) =
          ⟨NULL_PTR, c₀.getLastD NULL_PTR, nv % 4, pv % 4⟩ := by
        rw [hwt, unpack_pack_lt _ _ _ _ (by rw [NULL_PTR_lit]; omega) hP'f.1]
      have hhead_ne : s.head ≠ NULL_PTR := by
        rw [head_eq]
        exact (member_facts cap _ (c₀ ++ [tl]) hcap bounded
          (headD_mem _ _ (by simp))).2.2
      have hmem_item : (push_back s item).1.mem item = pack_links NULL_PTR tl 0 0 := by
        simp [push_back, htail, htlf.2.2, upd, htl_ne, halias, hu, Ne.symm htl_ne]
      have hmem_tl : (push_back s item).1.mem tl =
          pack_links item (c₀.getLastD NULL_PTR) ((nv % 4 + 1) % 4) (pv % 4) := by
        simp [push_back, htail, htlf.2.2, upd, htl_ne, halias, hu, VB_pow]
      have hmem_other : ∀ j, j ≠ item → j ≠ tl → (push_back s item).1.mem j = s.mem j := by
        intro j hji hjtl
        simp [push_back, htail, htlf.2.2, upd, htl_ne, halias, hu, hji, hjtl]
      have hnodup2 : ((c₀ ++ [tl]) ++ [item]).Nodup :=
        List.nodup_append.2 ⟨nodup, List.nodup_singleton item,
          fun a ha hb => hfresh ((List.mem_singleton.1 hb) ▸ ha)⟩
      refine ⟨(c₀ ++ [tl]) ++ [item], hnodup2, ?_, ?_, ?_, ?_, ?_⟩
      · intro i hi
        rcases (by simpa using hi : i ∈ c₀ ∨ i = tl ∨ i = item) with h | h | h
        · exact bounded i (by simp [h])
        · exact bounded i (by simp [h])
        · exact h ▸ hit
      · have hh : (push_back s item).1.head = s.head := by
          simp [push_back, htail, htlf.2.2, upd, htl_ne, halias, hhead_ne]
        rw [hh, hshead, headD_append, headD_append]
        rfl
      · simp [push_back, htail, htlf.2.2, upd, htl_ne, halias, getLastD_append_cons]
      · intro j hj hjn
        have hji : j ≠ item := fun hc => hjn (by simp [hc])
        have hjtl : j ≠ tl := fun hc => hjn (by simp [hc])
        rw [hmem_other j hji hjtl]
        refine unlinked j hj (fun hc => ?_)
        rcases (by simpa using hc : j ∈ c₀ ∨ j = tl) with h | h
        · exact hjn (by simp [h])
        · exact hjtl h
      · rw [chainSeg_append, chainSeg_append, htl]
        refine ⟨⟨?_, ⟨(nv % 4 + 1) % 4, pv % 4, hmem_tl⟩, trivial⟩, ⟨0, 0, hmem_item⟩, trivial⟩
        have hcong : ∀ i ∈ c₀, (push_back s item).1.mem i = s.mem i := by
          intro i hi
          have hii : i ≠ item := fun hc => hfresh (by simp [hc ▸ hi])
          have hitl : i ≠ tl := fun hc => htlinc₀ (hc ▸ hi)
          exact hmem_other i hii hitl
        exact (chainSeg_congr s _ c₀ NULL_PTR _ hcong).2 hc₀

theorem MAX_RETRIES_succ : MAX_RETRIES = 99 + 1 := rfl

theorem NP_ne_DM : NULL_PTR ≠ DELETING_MARK := by
  rw [NULL_PTR_lit, DELETING_MARK_lit]
  omega

theorem NP_ne_NL : NULL_PTR ≠ NULL_LINK := by
  rw [NULL_PTR_lit, NULL_LINK_lit]
  omega

theorem insert_after_loop_succ (anchor x fuel : Nat) (s : ListState) :
    insert_after_loop anchor x (fuel + 1) s =
      insert_after_go anchor x (insert_after_loop anchor x fuel) s := rfl

theorem insert_before_loop_succ (anchor x fuel : Nat) (s : ListState) :
    insert_before_loop anchor x (fuel + 1) s =
      insert_before_go anchor x (insert_before_loop anchor x fuel) s := rfl

theorem insert_after_preserves (cap : Nat) (s : ListState) (c : List Nat) (anchor x : Nat)
    (hcap : cap ≤ DELETING_MARK) (hinv : ChainInv cap s c) (han : anchor < cap)
    (hx : x < cap) (hfresh : x ∉ c) :
    ∃ c', ChainInv cap (insert_after s anchor x).1 c' := by
  by_cases hnull : s.mem anchor = NULL_LINK
  · refine ⟨c, ?_⟩
    have : insert_after s anchor x = (s, false) := by simp [insert_after, hnull]
    rw [this]
    exact hinv
  · have hanc : anchor ∈ c := by
      by_contra hn
      exact hnull (hinv.unlinked anchor han hn)
    obtain ⟨l, r, rfl⟩ := List.append_of_mem hanc
    obtain ⟨nodup, bounded, head_eq, tail_eq, unlinked, links⟩ := hinv
    rw [chainSeg_append] at links
    obtain ⟨hl, ⟨nv, pv, hw0⟩, hr⟩ := links
    have hw : s.mem anchor = pack_links (r.headD NULL_PTR) (l.getLastD NULL_PTR) nv pv := hw0
    have hbl : ∀ i ∈ l, i < cap := fun i hi => bounded i (List.mem_append_left _ hi)
    have hbr : ∀ i ∈ r, i < cap := fun i hi =>
      bounded i (List.mem_append_right _ (List.mem_cons_of_mem _ hi))
    have hanf := member_facts cap anchor (l ++ anchor :: r) hcap bounded hanc
    have hxf := member_facts cap x (x :: (l ++ anchor :: r)) hcap
      (by intro i hi; rcases List.mem_cons.1 hi with h | h; exacts [h ▸ hx, bounded i h])
      (by simp)
    have hxl : x ∉ l := fun hc => hfresh (List.mem_append_left _ hc)
    have hxr : x ∉ r := fun hc => hfresh (List.mem_append_right _ (List.mem_cons_of_mem _ hc))
    have hx_an : x ≠ anchor := fun hc => hfresh (by simp [hc])
    have hanl : anchor ∉ l := by
      have := List.nodup_append.1 nodup
      exact fun hc => this.2.2 hc (by simp)
    have hanr : anchor ∉ r := by
      have := List.nodup_append.1 nodup
      exact (List.nodup_cons.1 this.2.1).1
    have hPor : l.getLastD NULL_PTR = NULL_PTR ∨ l.getLastD NULL_PTR ∈ l := by
      cases l with
      | nil => exact Or.inl rfl
      | cons a t => exact Or.inr (getLastD_mem _ _ (by simp))
    have hNor : r.headD NULL_PTR = NULL_PTR ∨ r.headD NULL_PTR ∈ r := by
      cases r with
      | nil => exact Or.inl rfl
      | cons a t => exact Or.inr (headD_mem _ _ (by simp))
    have hPf := nb_facts cap (l.getLastD NULL_PTR) l hcap hbl hPor
    have hNf := nb_facts cap (r.headD NULL_PTR) r hcap hbr hNor
    have hu : unpack_links (s.mem anchor) =
        ⟨r.headD NULL_PTR, l.getLastD NULL_PTR, nv % 4, pv % 4⟩ := by
      rw [hw, unpack_pack_lt _ _ _ _ hNf.1 hPf.1]
    have hnodup2 : (l ++ anchor :: x :: r).Nodup := by
      rcases List.nodup_append.1 nodup with ⟨hnl, hnc, hdisj⟩
      refine List.nodup_append.2 ⟨hnl, ?_, ?_⟩
      · refine List.nodup_cons.2 ⟨?_, List.nodup_cons.2 ⟨hxr, (List.nodup_cons.1 hnc).2⟩⟩
        intro hc
        rcases List.mem_cons.1 hc with h | h
        exacts [hx_an h.symm, hanr h]
      · intro a ha hb
        rcases List.mem_cons.1 hb with h | h
        · exact hdisj ha (by simp [h])
        · rcases List.mem_cons.1 h with h2 | h2
          · exact hxl (h2 ▸ ha)
          · exact hdisj ha (by simp [h2])
    cases r with
    | nil =>
      have hstail : s.tail = anchor := by
        rw [tail_eq, getLastD_append_cons]
        rfl
      have hrun : (insert_after s anchor x).1 =
          { s with
            mem := upd (upd s.mem x (pack_links NULL_PTR anchor 0 0)) anchor
              (pack_links x (l.getLastD NULL_PTR) ((nv % 4 + 1) % 4) (pv % 4)),
            tail := x, size := (s.size + 1) % 2 ^ 64 } := by
        rw [insert_after, if_neg hnull, MAX_RETRIES_succ, insert_after_loop_succ]
        simp [insert_after_go, hnull, hu, hanf.2.2, hanf.2.1, hstail, VB_pow, NP_ne_DM]
      rw [hrun]
      refine ⟨l ++ anchor :: x :: [], hnodup2, ?_, ?_, ?_, ?_, ?_⟩
      · intro i hi
        rcases (by simpa using hi : i ∈ l ∨ i = anchor ∨ i = x) with h | h | h
        exacts [hbl i h, h ▸ han, h ▸ hx]
      · show s.head = _
        rw [head_eq, headD_append, headD_append]
        rfl
      · show x = _
        rw [getLastD_append_cons]
        rfl
      · intro j hj hjn
        have hjx : j ≠ x := fun hc => hjn (by simp [hc])
        have hjan : j ≠ anchor := fun hc => hjn (by simp [hc])
        show upd _ _ _ j = NULL_LINK
        rw [upd_ne _ _ _ _ hjan, upd_ne _ _ _ _ hjx]
        refine unlinked j hj (fun hc => ?_)
        rcases (by simpa using hc : j ∈ l ∨ j = anchor) with h | h
        · exact hjn (by simp [h])
        · exact hjan h
      · rw [chainSeg_append]
        refine ⟨?_, ⟨(nv % 4 + 1) % 4, pv % 4, ?_⟩, ⟨0, 0, ?_⟩, trivial⟩
        · have hcong : ∀ i ∈ l,
              (upd (upd s.mem x (pack_links NULL_PTR anchor 0 0)) anchor
                (pack_links x (l.getLastD NULL_PTR) ((nv % 4 + 1) % 4) (pv % 4))) i
                = s.mem i := by
            intro i hi
            have hii : i ≠ anchor := fun hc => hanl (hc ▸ hi)
            have hix : i ≠ x := fun hc => hxl (hc ▸ hi)
            rw [upd_ne _ _ _ _ hii, upd_ne _ _ _ _ hix]
          exact (chainSeg_congr s _ l NULL_PTR _ (by exact hcong)).2 hl
        · show upd _ _ _ anchor = _
          rw [upd_same]
          rfl
        · show upd _ _ _ x = _
          rw [upd_ne _ _ _ _ hx_an, upd_same]
          rfl
    | cons rh r' =>
      obtain ⟨⟨nv2, pv2, hwr0⟩, hr'⟩ := hr
      have hwr : s.mem rh = pack_links (r'.headD NULL_PTR) anchor nv2 pv2 := hwr0
      have hrhf := member_facts cap rh (l ++ anchor :: rh :: r') hcap bounded (by simp)
      have hrh_an : rh ≠ anchor := fun hc => hanr (by simp [← hc])
      have hrh_x : rh ≠ x := fun hc => hxr (by simp [← hc])
      have hbr' : ∀ i ∈ r', i < cap := fun i hi => hbr i (List.mem_cons_of_mem _ hi)
      have hN'or : r'.headD NULL_PTR = NULL_PTR ∨ r'.headD NULL_PTR ∈ r' := by
        cases r' with
        | nil => exact Or.inl rfl
        | cons a t => exact Or.inr (headD_mem _ _ (by simp))
      have hN'f := nb_facts cap (r'.headD NULL_PTR) r' hcap hbr' hN'or
      have hurh : unpack_links (s.mem rh) =
          ⟨r'.headD NULL_PTR, anchor, nv2 % 4, pv2 % 4⟩ := by
        rw [hwr, unpack_pack_lt _ _ _ _ hN'f.1 hanf.1]
      have hrhnn : s.mem rh ≠ NULL_LINK := by
        rw [hwr]
        exact pack_ne_null_of_prev _ _ _ _ hanf.1 hanf.2.2
      have hN'D : r'.head?.getD NULL_PTR ≠ DELETING_MARK := by simpa using hN'f.2
      have hrun : (insert_after s anchor x).1 =
          { s with
            mem := upd (upd (upd s.mem x (pack_links rh anchor 0 0)) anchor
                (pack_links x (l.getLastD NULL_PTR) ((nv % 4 + 1) % 4) (pv % 4))) rh
                (pack_links (r'.headD NULL_PTR) x (nv2 % 4) ((pv2 % 4 + 1) % 4)),
            size := (s.size + 1) % 2 ^ 64 } := by
        rw [insert_after, if_neg hnull, MAX_RETRIES_succ, insert_after_loop_succ]
        simp [insert_after_go, hnull, hu, hanf.2.2, hanf.2.1, hrhf.2.2, hrhf.2.1,
          upd_ne _ _ _ _ hrh_an, upd_ne _ _ _ _ hrh_x, hurh, hrhnn, hN'D, VB_pow, NP_ne_DM]
      rw [hrun]
      refine ⟨l ++ anchor :: x :: rh :: r', hnodup2, ?_, ?_, ?_, ?_, ?_⟩
      · intro i hi
        rcases (by simpa using hi : i ∈ l ∨ i = anchor ∨ i = x ∨ i = rh ∨ i ∈ r') with h | h | h | h | h
        exacts [hbl i h, h ▸ han, h ▸ hx, h ▸ hbr rh (by simp), hbr' i h]
      · show s.head = _
        rw [head_eq, headD_append, headD_append]
        rfl
      · show s.tail = _
        rw [tail_eq, getLastD_append_cons, getLastD_append_cons, getLastD_cons_eq,
          getLastD_cons_eq, getLastD_cons_eq]
      · intro j hj hjn
        have hjx : j ≠ x := fun hc => hjn (by simp [hc])
        have hjan : j ≠ anchor := fun hc => hjn (by simp [hc])
        have hjrh : j ≠ rh := fun hc => hjn (by simp [hc])
        show upd _ _ _ j = NULL_LINK
        rw [upd_ne _ _ _ _ hjrh, upd_ne _ _ _ _ hjan, upd_ne _ _ _ _ hjx]
        refine unlinked j hj (fun hc => ?_)
        rcases (by simpa using hc : j ∈ l ∨ j = anchor ∨ j = rh ∨ j ∈ r') with h | h | h | h
        · exact hjn (by simp [h])
        · exact hjan h
        · exact hjrh h
        · exact hjn (by simp [h])
      · rw [chainSeg_append]
        refine ⟨?_, ⟨(nv % 4 + 1) % 4, pv % 4, ?_⟩, ⟨0, 0, ?_⟩,
          ⟨nv2 % 4, (pv2 % 4 + 1) % 4, ?_⟩, ?_⟩
        · have hcong : ∀ i ∈ l,
              (upd (upd (upd s.mem x (pack_links rh anchor 0 0)) anchor
                (pack_links x (l.getLastD NULL_PTR) ((nv % 4 + 1) % 4) (pv % 4))) rh
                (pack_links (r'.headD NULL_PTR) x (nv2 % 4) ((pv2 % 4 + 1) % 4))) i
                = s.mem i := by
            intro i hi
            have hian : i ≠ anchor := fun hc => hanl (hc ▸ hi)
            have hix : i ≠ x := fun hc => hxl (hc ▸ hi)
            have hirh : i ≠ rh := by
              intro hc
              rcases List.nodup_append.1 nodup with ⟨-, -, hdisj⟩
              exact hdisj (hc ▸ hi) (by simp)
            rw [upd_ne _ _ _ _ hirh, upd_ne _ _ _ _ hian, upd_ne _ _ _ _ hix]
          exact (chainSeg_congr s _ l NULL_PTR _ (by exact hcong)).2 hl
        · show upd _ _ _ anchor = _
          rw [upd_ne _ _ _ _ hrh_an.symm, upd_same]
          rfl
        · show upd _ _ _ x = _
          rw [upd_ne _ _ _ _ hrh_x.symm, upd_ne _ _ _ _ hx_an, upd_same]
          rfl
        · show upd _ _ _ rh = _
          rw [upd_same]
        · have hcong : ∀ i ∈ r',
              (upd (upd (upd s.mem x (pack_links rh anchor 0 0)) anchor
                (pack_links x (l.getLastD NULL_PTR) ((nv % 4 + 1) % 4) (pv % 4))) rh
                (pack_links (r'.headD NULL_PTR) x (nv2 % 4) ((pv2 % 4 + 1) % 4))) i
                = s.mem i := by
            intro i hi
            have hian : i ≠ anchor := fun hc => hanr (by simp [hc ▸ hi])
            have hix : i ≠ x := fun hc => hxr (by simp [hc ▸ hi])
            have hirh : i ≠ rh := by
              intro hc
              rcases List.nodup_append.1 nodup with ⟨-, hnc, -⟩
              exact (List.nodup_cons.1 (List.nodup_cons.1 hnc).2).1 (hc ▸ hi)
            rw [upd_ne _ _ _ _ hirh, upd_ne _ _ _ _ hian, upd_ne _ _ _ _ hix]
          exact (chainSeg_congr s _ r' rh NULL_PTR (by exact hcong)).2 hr'

theorem insert_before_preserves (cap : Nat) (s : ListState) (c : List Nat) (anchor x : Nat)
    (hcap : cap ≤ DELETING_MARK) (hinv : ChainInv cap s c) (han : anchor < cap)
    (hx : x < cap) (hfresh : x ∉ c) :
    ∃ c', ChainInv cap (insert_before s anchor x).1 c' := by
  by_cases hnull : s.mem anchor = NULL_LINK
  · -- entry guard: anchor already removed; the new node is invalidated
    obtain ⟨nodup, bounded, head_eq, tail_eq, unlinked, links⟩ := hinv
    have hrun : (insert_before s anchor x).1 =
        { s with mem := upd s.mem x NULL_LINK } := by
      rw [insert_before, MAX_RETRIES_succ, insert_before_loop_succ]
      simp [insert_before_go, hnull]
    rw [hrun]
    refine ⟨c, nodup, bounded, head_eq, tail_eq, ?_, ?_⟩
    · intro j hj hjn
      by_cases hji : j = x
      · subst hji
        exact upd_same _ _ _
      · show upd s.mem x NULL_LINK j = NULL_LINK
        rw [upd_ne _ _ _ _ hji]
        exact unlinked j hj hjn
    · have hcong : ∀ i ∈ c, upd s.mem x NULL_LINK i = s.mem i := by
        intro i hi
        exact upd_ne _ _ _ _ (fun hc => hfresh (hc ▸ hi))
      exact (chainSeg_congr s _ c NULL_PTR NULL_PTR (by exact hcong)).2 links
  · have hanc : anchor ∈ c := by
      by_contra hn
      exact hnull (hinv.unlinked anchor han hn)
    obtain ⟨l, r, rfl⟩ := List.append_of_mem hanc
    obtain ⟨nodup, bounded, head_eq, tail_eq, unlinked, links⟩ := hinv
    rw [chainSeg_append] at links
    obtain ⟨hl, ⟨nv, pv, hw0⟩, hr⟩ := links
    have hw : s.mem anchor = pack_links (r.headD NULL_PTR) (l.getLastD NULL_PTR) nv pv := hw0
    have hbl : ∀ i ∈ l, i < cap := fun i hi => bounded i (List.mem_append_left _ hi)
    have hbr : ∀ i ∈ r, i < cap := fun i hi =>
      bounded i (List.mem_append_right _ (List.mem_cons_of_mem _ hi))
    have hanf := member_facts cap anchor (l ++ anchor :: r) hcap bounded hanc
    have hxl : x ∉ l := fun hc => hfresh (List.mem_append_left _ hc)
    have hxr : x ∉ r := fun hc => hfresh (List.mem_append_right _ (List.mem_cons_of_mem _ hc))
    have hx_an : x ≠ anchor := fun hc => hfresh (by simp [hc])
    have hanl : anchor ∉ l := by
      have := List.nodup_append.1 nodup
      exact fun hc => this.2.2 hc (by simp)
    have hanr : anchor ∉ r := by
      have := List.nodup_append.1 nodup
      exact (List.nodup_cons.1 this.2.1).1
    have hPor : l.getLastD NULL_PTR = NULL_PTR ∨ l.getLastD NULL_PTR ∈ l := by
      cases l with
      | nil => exact Or.inl rfl
      | cons a t => exact Or.inr (getLastD_mem _ _ (by simp))
    have hNor : r.headD NULL_PTR = NULL_PTR ∨ r.headD NULL_PTR ∈ r := by
      cases r with
      | nil => exact Or.inl rfl
      | cons a t => exact Or.inr (headD_mem _ _ (by simp))
    have hPf := nb_facts cap (l.getLastD NULL_PTR) l hcap hbl hPor
    have hNf := nb_facts cap (r.headD NULL_PTR) r hcap hbr hNor
    have hu : unpack_links (s.mem anchor) =
        ⟨r.headD NULL_PTR, l.getLastD NULL_PTR, nv % 4, pv % 4⟩ := by
      rw [hw, unpack_pack_lt _ _ _ _ hNf.1 hPf.1]
    have hND : r.head?.getD NULL_PTR ≠ DELETING_MARK := by simpa using hNf.2
    have hnodup2 : (l ++ x :: anchor :: r).Nodup := by
      rcases List.nodup_append.1 nodup with ⟨hnl, hnc, hdisj⟩
      refine List.nodup_append.2 ⟨hnl, ?_, ?_⟩
      · refine List.nodup_cons.2 ⟨?_, hnc⟩
        intro hc
        rcases List.mem_cons.1 hc with h | h
        exacts [hx_an h, hxr h]
      · intro a ha hb
        rcases List.mem_cons.1 hb with h | h
        · exact hxl (h ▸ ha)
        · exact hdisj ha h
    rcases List.eq_nil_or_concat l with rfl | ⟨l', pl, rfl⟩
    · -- anchor is the head: update the head anchor
      simp only [List.nil_append] at nodup bounded head_eq tail_eq unlinked hnodup2 hfresh hanc ⊢
      have hshead : s.head = anchor := by simpa using head_eq
      have hrun : (insert_before s anchor x).1 =
          { s with
            mem := upd (upd s.mem x (pack_links anchor NULL_PTR 0 0)) anchor
              (pack_links (r.headD NULL_PTR) x (nv % 4) ((pv % 4 + 1) % 4)),
            head := x, size := (s.size + 1) % 2 ^ 64 } := by
        rw [insert_before, MAX_RETRIES_succ, insert_before_loop_succ]
        simp [insert_before_go, hnull, hu, hND, hshead, VB_pow, NP_ne_DM]
      rw [hrun]
      refine ⟨x :: anchor :: r, by simpa using hnodup2, ?_, ?_, ?_, ?_, ?_⟩
      · intro i hi
        rcases (by simpa using hi : i = x ∨ i = anchor ∨ i ∈ r) with h | h | h
        exacts [h ▸ hx, h ▸ han, hbr i h]
      · rfl
      · show s.tail = _
        rw [tail_eq, getLastD_cons_eq, getLastD_cons_eq, getLastD_cons_eq]
      · intro j hj hjn
        have hjx : j ≠ x := fun hc => hjn (by simp [hc])
        have hjan : j ≠ anchor := fun hc => hjn (by simp [hc])
        show upd _ _ _ j = NULL_LINK
        rw [upd_ne _ _ _ _ hjan, upd_ne _ _ _ _ hjx]
        refine unlinked j hj (fun hc => ?_)
        rcases (by simpa using hc : j = anchor ∨ j ∈ r) with h | h
        · exact hjan h
        · exact hjn (by simp [h])
      · refine ⟨⟨0, 0, ?_⟩, ⟨nv % 4, (pv % 4 + 1) % 4, ?_⟩, ?_⟩
        · show upd _ _ _ x = _
          rw [upd_ne _ _ _ _ hx_an, upd_same]
          rfl
        · show upd _ _ _ anchor = _
          rw [upd_same]
        · have hcong : ∀ i ∈ r,
              (upd (upd s.mem x (pack_links anchor NULL_PTR 0 0)) anchor
                (pack_links (r.headD NULL_PTR) x (nv % 4) ((pv % 4 + 1) % 4))) i
                = s.mem i := by
            intro i hi
            have hian : i ≠ anchor := fun hc => hanr (hc ▸ hi)
            have hix : i ≠ x := fun hc => hxr (hc ▸ hi)
            rw [upd_ne _ _ _ _ hian, upd_ne _ _ _ _ hix]
          exact (chainSeg_congr s _ r anchor NULL_PTR (by exact hcong)).2 hr
    · -- anchor has a predecessor pl: fix the next field of pl
      simp only [List.concat_eq_append] at nodup bounded head_eq tail_eq unlinked hl hw
      simp only [List.concat_eq_append] at hbl hPor hPf hu hnodup2 hxl hanl ⊢
      have hPpl : (l' ++ [pl]).getLastD NULL_PTR = pl := getLastD_append_cons l' pl [] NULL_PTR
      rw [hPpl] at hw hu hPor hPf
      rw [chainSeg_append] at hl
      obtain ⟨hl', ⟨nv2, pv2, hwpl0⟩, -⟩ := hl
      have hwpl : s.mem pl = pack_links anchor (l'.getLastD NULL_PTR) nv2 pv2 := hwpl0
      have hplf := member_facts cap pl ((l' ++ [pl]) ++ anchor :: r) hcap bounded (by simp)
      have hpl_an : pl ≠ anchor := fun hc => hanl (by simp [← hc])
      have hpl_x : pl ≠ x := fun hc => hxl (by simp [← hc])
      have hbl' : ∀ i ∈ l', i < cap := fun i hi => hbl i (by simp [hi])
      have hP'or : l'.getLastD NULL_PTR = NULL_PTR ∨ l'.getLastD NULL_PTR ∈ l' := by
        cases l' with
        | nil => exact Or.inl rfl
        | cons a t => exact Or.inr (getLastD_mem _ _ (by simp))
      have hP'f := nb_facts cap (l'.getLastD NULL_PTR) l' hcap hbl' hP'or
      have hupl : unpack_links (s.mem pl) =
          ⟨anchor, l'.getLastD NULL_PTR, nv2 % 4, pv2 % 4⟩ := by
        rw [hwpl, unpack_pack_lt _ _ _ _ hanf.1 hP'f.1]
      have hplnn : s.mem pl ≠ NULL_LINK := by
        rw [hwpl]
        exact pack_ne_null_of_next _ _ _ _ hanf.1 hanf.2.2
      have hplinl' : pl ∉ l' := by
        have := List.nodup_append.1 (List.nodup_append.1 nodup).1
        exact fun hc => this.2.2 hc (by simp)
      have hshead : s.head = l'.headD pl := by
        rw [head_eq, headD_append, headD_append]
        rfl
      have hrun : (insert_before s anchor x).1 =
          { s with
            mem := upd (upd (upd s.mem x (pack_links anchor pl 0 0)) anchor
                (pack_links (r.headD NULL_PTR) x (nv % 4) ((pv % 4 + 1) % 4))) pl
                (pack_links x (l'.getLastD NULL_PTR) ((nv2 % 4 + 1) % 4) (pv2 % 4)),
            size := (s.size + 1) % 2 ^ 64 } := by
        rw [insert_before, MAX_RETRIES_succ, insert_before_loop_succ]
        simp [insert_before_go, hnull, hu, hND, hplf.2.2, hplf.2.1, hanf.2.2, hanf.2.1,
          upd_ne _ _ _ _ hpl_an, upd_ne _ _ _ _ hpl_x, hupl, hplnn, VB_pow, NP_ne_DM]
      rw [hrun]
      refine ⟨(l' ++ [pl]) ++ x :: anchor :: r, by simpa using hnodup2, ?_, ?_, ?_, ?_, ?_⟩
      · intro i hi
        rcases (by simpa using hi : i ∈ l' ∨ i = pl ∨ i = x ∨ i = anchor ∨ i ∈ r) with h | h | h | h | h
        exacts [hbl' i h, h ▸ hbl pl (by simp), h ▸ hx, h ▸ han, hbr i h]
      · show s.head = _
        rw [hshead, headD_append, headD_append]
        rfl
      · show s.tail = _
        rw [tail_eq, getLastD_append_cons, getLastD_append_cons, getLastD_cons_eq]
      · intro j hj hjn
        have hjx : j ≠ x := fun hc => hjn (by simp [hc])
        have hjan : j ≠ anchor := fun hc => hjn (by simp [hc])
        have hjpl : j ≠ pl := fun hc => hjn (by simp [hc])
        show upd _ _ _ j = NULL_LINK
        rw [upd_ne _ _ _ _ hjpl, upd_ne _ _ _ _ hjan, upd_ne _ _ _ _ hjx]
        refine unlinked j hj (fun hc => ?_)
        rcases (by simpa using hc : j ∈ l' ∨ j = pl ∨ j = anchor ∨ j ∈ r) with h | h | h | h
        · exact hjn (by simp [h])
        · exact hjpl h
        · exact hjan h
        · exact hjn (by simp [h])
      · rw [chainSeg_append, chainSeg_append, hPpl]
        refine ⟨⟨?_, ⟨(nv2 % 4 + 1) % 4, pv2 % 4, ?_⟩, trivial⟩, ⟨0, 0, ?_⟩,
          ⟨nv % 4, (pv % 4 + 1) % 4, ?_⟩, ?_⟩
        · have hcong : ∀ i ∈ l',
              (upd (upd (upd s.mem x (pack_links anchor pl 0 0)) anchor
                (pack_links (r.headD NULL_PTR) x (nv % 4) ((pv % 4 + 1) % 4))) pl
                (pack_links x (l'.getLastD NULL_PTR) ((nv2 % 4 + 1) % 4) (pv2 % 4))) i
                = s.mem i := by
            intro i hi
            have hian : i ≠ anchor := fun hc => hanl (by simp [hc ▸ hi])
            have hix : i ≠ x := fun hc => hxl (by simp [hc ▸ hi])
            have hipl : i ≠ pl := fun hc => hplinl' (hc ▸ hi)
            rw [upd_ne _ _ _ _ hipl, upd_ne _ _ _ _ hian, upd_ne _ _ _ _ hix]
          exact (chainSeg_congr s _ l' NULL_PTR _ (by exact hcong)).2 hl'
        · show upd _ _ _ pl = _
          rw [upd_same]
          rfl
        · show upd _ _ _ x = _
          rw [upd_ne _ _ _ _ hpl_x.symm, upd_ne _ _ _ _ hx_an, upd_same]
          rfl
        · show upd _ _ _ anchor = _
          rw [upd_ne _ _ _ _ hpl_an.symm, upd_same]
        · have hcong : ∀ i ∈ r,
              (upd (upd (upd s.mem x (pack_links anchor pl 0 0)) anchor
                (pack_links (r.headD NULL_PTR) x (nv % 4) ((pv % 4 + 1) % 4))) pl
                (pack_links x (l'.getLastD NULL_PTR) ((nv2 % 4 + 1) % 4) (pv2 % 4))) i
                = s.mem i := by
            intro i hi
            have hian : i ≠ anchor := fun hc => hanr (hc ▸ hi)
            have hix : i ≠ x := fun hc => hxr (hc ▸ hi)
            have hipl : i ≠ pl := by
              intro hc
              rcases List.nodup_append.1 nodup with ⟨-, -, hdisj⟩
              exact hdisj (by simp : pl ∈ l' ++ [pl]) (by simp [← hc, hi])
            rw [upd_ne _ _ _ _ hipl, upd_ne _ _ _ _ hian, upd_ne _ _ _ _ hix]
          exact (chainSeg_congr s _ r anchor NULL_PTR (by exact hcong)).2 hr

theorem pop_front_loop_preserves (cap : Nat) (hcap : cap ≤ DELETING_MARK) :
    ∀ (fuel : Nat) (s : ListState), Inv cap s → Inv cap (pop_front_loop fuel s).1 := by
  intro fuel
  induction fuel with
  | zero => intro s hinv; exact hinv
  | succ fuel ih =>
    intro s hinv
    by_cases hh : s.head = NULL_PTR
    · simpa [pop_front_loop, hh] using hinv
    · have hhead_cap : s.head < cap := by
        obtain ⟨c, hc⟩ := hinv
        cases c with
        | nil => exact absurd hc.head_eq hh
        | cons a t => exact hc.bounded _ (hc.head_eq ▸ headD_mem _ _ (by simp))
      have hrp : Inv cap (remove s s.head).1 := by
        obtain ⟨c, hc⟩ := hinv
        exact remove_preserves cap s c s.head hcap hc hhead_cap
      rcases hrem : remove s s.head with ⟨s', r⟩
      rw [hrem] at hrp
      cases r with
      | none =>
        have : (pop_front_loop (fuel + 1) s).1 = (pop_front_loop fuel s').1 := by
          simp [pop_front_loop, hh, hrem]
        rw [this]
        exact ih s' hrp
      | some it =>
        have : (pop_front_loop (fuel + 1) s).1 = s' := by
          simp [pop_front_loop, hh, hrem]
        rw [this]
        exact hrp

theorem pop_back_loop_preserves (cap : Nat) (hcap : cap ≤ DELETING_MARK) :
    ∀ (fuel : Nat) (s : ListState), Inv cap s → Inv cap (pop_back_loop fuel s).1 := by
  intro fuel
  induction fuel with
  | zero => intro s hinv; exact hinv
  | succ fuel ih =>
    intro s hinv
    by_cases hh : s.tail = NULL_PTR
    · simpa [pop_back_loop, hh] using hinv
    · have htail_cap : s.tail < cap := by
        obtain ⟨c, hc⟩ := hinv
        cases c with
        | nil => exact absurd hc.tail_eq hh
        | cons a t => exact hc.bounded _ (hc.tail_eq ▸ getLastD_mem _ _ (by simp))
      have hrp : Inv cap (remove s s.tail).1 := by
        obtain ⟨c, hc⟩ := hinv
        exact remove_preserves cap s c s.tail hcap hc htail_cap
      rcases hrem : remove s s.tail with ⟨s', r⟩
      rw [hrem] at hrp
      cases r with
      | none =>
        have : (pop_back_loop (fuel + 1) s).1 = (pop_back_loop fuel s').1 := by
          simp [pop_back_loop, hh, hrem]
        rw [this]
        exact ih s' hrp
      | some it =>
        have : (pop_back_loop (fuel + 1) s).1 = s' := by
          simp [pop_back_loop, hh, hrem]
        rw [this]
        exact hrp

/-- The chain of an invariant state is exactly what forward traversal
from the head reads back (fuel `cap` suffices: the chain is duplicate-free
over `cap` slots). -/
theorem chainFrom_seg (cap : Nat) (s : ListState) (hcap : cap ≤ DELETING_MARK) :
    ∀ (d : List Nat) (p fuel : Nat), chainSeg s p d NULL_PTR → (∀ i ∈ d, i < cap) →
      d.length ≤ fuel → chainFrom s fuel (d.headD NULL_PTR) = d := by
  intro d
  induction d with
  | nil =>
    intro p fuel _ _ _
    cases fuel with
    | zero => rfl
    | succ fuel => simp [chainFrom]
  | cons i rest ih =>
    intro p fuel hseg hb hlen
    obtain ⟨⟨nv, pv, hw⟩, hrest⟩ := hseg
    cases fuel with
    | zero => simp at hlen
    | succ fuel =>
      have hif := member_facts cap i (i :: rest) hcap hb (by simp)
      have hbrest : ∀ j ∈ rest, j < cap := fun j hj => hb j (List.mem_cons_of_mem _ hj)
      have hNor : rest.headD NULL_PTR = NULL_PTR ∨ rest.headD NULL_PTR ∈ rest := by
        cases rest with
        | nil => exact Or.inl rfl
        | cons a t => exact Or.inr (headD_mem _ _ (by simp))
      have hNf := nb_facts cap (rest.headD NULL_PTR) rest hcap hbrest hNor
      have hnext : nodeNext s i = rest.headD NULL_PTR := by
        rw [nodeNext, hw, unpack_pack]
        exact Nat.mod_eq_of_lt hNf.1
      show chainFrom s (fuel + 1) i = i :: rest
      rw [chainFrom, if_neg (by push_neg; exact ⟨hif.2.2, hif.2.1⟩), hnext]
      rw [ih i fuel hrest hbrest (by simpa using hlen)]

theorem liveNodes_eq (cap : Nat) (s : ListState) (c : List Nat)
    (hcap : cap ≤ DELETING_MARK) (hc : ChainInv cap s c) : liveNodes cap s = c := by
  have hlen : c.length ≤ cap := by
    have hsub : c ⊆ List.range cap := fun i hi => List.mem_range.2 (hc.bounded i hi)
    simpa using (hc.nodup.subperm hsub).length_le
  rw [liveNodes, hc.head_eq]
  exact chainFrom_seg cap s hcap c NULL_PTR cap hc.links hc.bounded hlen

/-- The claim-level consistency predicate over the live (head-reachable)
nodes of a quiescent state. -/
def Consistent (cap : Nat) (s : ListState) : Prop :=
  (s.head = NULL_PTR ↔ s.tail = NULL_PTR) ∧
  (∀ i ∈ liveNodes cap s,
    (nodeNext s i ≠ NULL_PTR → nodePrev s (nodeNext s i) = i) ∧
    (nodePrev s i ≠ NULL_PTR → nodeNext s (nodePrev s i) = i)) ∧
  (s.head ≠ NULL_PTR → nodePrev s s.head = NULL_PTR) ∧
  (s.tail ≠ NULL_PTR → nodeNext s s.tail = NULL_PTR)

theorem seg_consistent (cap : Nat) (s : ListState) (hcap : cap ≤ DELETING_MARK) :
    ∀ (d : List Nat) (p : Nat), chainSeg s p d NULL_PTR → (∀ i ∈ d, i < cap) →
      (p = NULL_PTR ∨ (p < cap ∧ nodeNext s p = d.headD NULL_PTR)) →
      ∀ i ∈ d, (nodeNext s i ≠ NULL_PTR → nodePrev s (nodeNext s i) = i) ∧
        (nodePrev s i ≠ NULL_PTR → nodeNext s (nodePrev s i) = i) := by
  intro d
  induction d with
  | nil => intro p _ _ _ i hi; cases hi
  | cons j rest ih =>
    intro p hseg hb hp i hi
    obtain ⟨⟨nv, pv, hw⟩, hrest⟩ := hseg
    have hjf := member_facts cap j (j :: rest) hcap hb (by simp)
    have hbrest : ∀ a ∈ rest, a < cap := fun a ha => hb a (List.mem_cons_of_mem _ ha)
    have hNor : rest.headD NULL_PTR = NULL_PTR ∨ rest.headD NULL_PTR ∈ rest := by
      cases rest with
      | nil => exact Or.inl rfl
      | cons a t => exact Or.inr (headD_mem _ _ (by simp))
    have hNf := nb_facts cap (rest.headD NULL_PTR) rest hcap hbrest hNor
    have hp30 : p < 2 ^ 30 := by
      rcases hp with h | h
      · rw [h, NULL_PTR_lit]; omega
      · have := h.1
        rw [DELETING_MARK_lit] at hcap
        omega
    have hnextj : nodeNext s j = rest.headD NULL_PTR := by
      rw [nodeNext, hw, unpack_pack]
      exact Nat.mod_eq_of_lt hNf.1
    have hprevj : nodePrev s j = p := by
      rw [nodePrev, hw, unpack_pack]
      exact Nat.mod_eq_of_lt hp30
    rcases List.mem_cons.1 hi with rfl | hir
    · constructor
      · intro hne
        rw [hnextj] at hne ⊢
        cases rest with
        | nil => exact absurd rfl hne
        | cons k rest' =>
          obtain ⟨⟨nv2, pv2, hwk⟩, -⟩ := hrest
          show nodePrev s k = i
          rw [nodePrev, hwk, unpack_pack]
          exact Nat.mod_eq_of_lt hjf.1
      · intro hne
        rw [hprevj] at hne ⊢
        rcases hp with h | h
        · exact absurd h hne
        · rw [h.2]
          rfl
    · exact ih j hrest hbrest (Or.inr ⟨hb j (by simp), hnextj⟩) i hir

theorem seg_last_next (cap : Nat) (s : ListState) (hcap : cap ≤ DELETING_MARK) :
    ∀ (d : List Nat) (p : Nat), d ≠ [] → chainSeg s p d NULL_PTR → (∀ i ∈ d, i < cap) →
      nodeNext s (d.getLastD NULL_PTR) = NULL_PTR := by
  intro d
  induction d with
  | nil => intro p h; exact absurd rfl h
  | cons j rest ih =>
    intro p _ hseg hb
    obtain ⟨⟨nv, pv, hw⟩, hrest⟩ := hseg
    cases rest with
    | nil =>
      show nodeNext s j = NULL_PTR
      rw [nodeNext, hw, unpack_pack]
      norm_num [NULL_PTR_lit]
    | cons k rest' =>
      rw [getLastD_cons_eq]
      have : (k :: rest').getLastD j = (k :: rest').getLastD NULL_PTR := by
        rw [getLastD_cons_eq, getLastD_cons_eq]
      rw [this]
      exact ih j (by simp) hrest (fun a ha => hb a (List.mem_cons_of_mem _ ha))

theorem inv_consistent (cap : Nat) (s : ListState) (hcap : cap ≤ DELETING_MARK)
    (hinv : Inv cap s) : Consistent cap s := by
  obtain ⟨c, hc⟩ := hinv
  have hlive := liveNodes_eq cap s c hcap hc
  refine ⟨?_, ?_, ?_, ?_⟩
  · cases c with
    | nil =>
      rw [hc.head_eq, hc.tail_eq]
      exact Iff.rfl
    | cons a t =>
      have h1 : s.head ≠ NULL_PTR := by
        rw [hc.head_eq]
        exact (member_facts cap _ (a :: t) hcap hc.bounded (headD_mem _ _ (by simp))).2.2
      have h2 : s.tail ≠ NULL_PTR := by
        rw [hc.tail_eq]
        exact (member_facts cap _ (a :: t) hcap hc.bounded (getLastD_mem _ _ (by simp))).2.2
      exact ⟨fun h => absurd h h1, fun h => absurd h h2⟩
  · rw [hlive]
    exact seg_consistent cap s hcap c NULL_PTR hc.links hc.bounded (Or.inl rfl)
  · intro hne
    cases c with
    | nil => exact absurd hc.head_eq hne
    | cons a t =>
      obtain ⟨⟨nv, pv, hw⟩, -⟩ := hc.links
      rw [hc.head_eq]
      show nodePrev s a = NULL_PTR
      rw [nodePrev, hw, unpack_pack]
      norm_num [NULL_PTR_lit]
  · intro hne
    cases c with
    | nil => exact absurd hc.tail_eq hne
    | cons a t =>
      rw [hc.tail_eq]
      exact seg_last_next cap s hcap (a :: t) NULL_PTR (by simp) hc.links hc.bounded

/-- The quiescent states reachable by sequentially applying the public
operations from the empty list.  Insertions take a slot that is not a
current member (the usage contract of the container: a slot is reusable only
once it has left the list). -/
inductive Reaches (cap : Nat) : ListState → Prop where
  | init : Reaches cap emptyList
  | push_front_step (s : ListState) (item : Nat) : Reaches cap s → item < cap →
      item ∉ liveNodes cap s → Reaches cap (push_front s item).1
  | push_back_step (s : ListState) (item : Nat) : Reaches cap s → item < cap →
      item ∉ liveNodes cap s → Reaches cap (push_back s item).1
  | insert_after_step (s : ListState) (anchor item : Nat) : Reaches cap s → anchor < cap →
      item < cap → item ∉ liveNodes cap s → Reaches cap (insert_after s anchor item).1
  | insert_before_step (s : ListState) (anchor item : Nat) : Reaches cap s → anchor < cap →
      item < cap → item ∉ liveNodes cap s → Reaches cap (insert_before s anchor item).1
  | remove_step (s : ListState) (item : Nat) : Reaches cap s → item < cap →
      Reaches cap (remove s item).1
  | pop_front_step (s : ListState) : Reaches cap s → Reaches cap (pop_front s).1
  | pop_back_step (s : ListState) : Reaches cap s → Reaches cap (pop_back s).1

theorem reaches_inv (cap : Nat) (s : ListState) (hcap : cap ≤ DELETING_MARK)
    (h : Reaches cap s) : Inv cap s := by
  induction h with
  | init =>
    exact ⟨[], by simp, by simp, rfl, rfl, fun i _ _ => rfl, trivial⟩
  | push_front_step s item _ hit hfresh ih =>
    obtain ⟨c, hc⟩ := ih
    rw [liveNodes_eq cap s c hcap hc] at hfresh
    exact push_front_preserves cap s c item hcap hc hit hfresh
  | push_back_step s item _ hit hfresh ih =>
    obtain ⟨c, hc⟩ := ih
    rw [liveNodes_eq cap s c hcap hc] at hfresh
    exact push_back_preserves cap s c item hcap hc hit hfresh
  | insert_after_step s anchor item _ han hit hfresh ih =>
    obtain ⟨c, hc⟩ := ih
    rw [liveNodes_eq cap s c hcap hc] at hfresh
    exact insert_after_preserves cap s c anchor item hcap hc han hit hfresh
  | insert_before_step s anchor item _ han hit hfresh ih =>
    obtain ⟨c, hc⟩ := ih
    rw [liveNodes_eq cap s c hcap hc] at hfresh
    exact insert_before_preserves cap s c anchor item hcap hc han hit hfresh
  | remove_step s item _ hit ih =>
    obtain ⟨c, hc⟩ := ih
    exact remove_preserves cap s c item hcap hc hit
  | pop_front_step s _ ih => exact pop_front_loop_preserves cap hcap MAX_RETRIES s ih
  | pop_back_step s _ ih => exact pop_back_loop_preserves cap hcap MAX_RETRIES s ih

/-! ### `find` under the retry budget -/

theorem findGo_one (s : ListState) (p : Nat → Bool) (cur : Nat) :
    findGo s p 1 cur =
      if cur = NULL_PTR ∨ cur = DELETING_MARK then none
      else if s.mem cur = NULL_LINK ∨ (unpack_links (s.mem cur)).next = DELETING_MARK then none
      else if p cur then some cur
      else findGo s p 0 (unpack_links (s.mem cur)).next := rfl

theorem findGo_two (s : ListState) (p : Nat → Bool) (f cur : Nat) :
    findGo s p (f + 2) cur =
      if cur = NULL_PTR ∨ cur = DELETING_MARK then none
      else if s.mem cur = NULL_LINK ∨ (unpack_links (s.mem cur)).next = DELETING_MARK then
        findGo s p f s.head
      else if p cur then some cur
      else findGo s p (f + 1) (unpack_links (s.mem cur)).next := rfl

theorem findGo_sentinel (s : ListState) (p : Nat → Bool) (fuel cur : Nat)
    (h : cur = NULL_PTR ∨ cur = DELETING_MARK) : findGo s p fuel cur = none := by
  match fuel with
  | 0 => rfl
  | 1 => rw [findGo_one, if_pos h]
  | f + 2 => rw [findGo_two, if_pos h]

theorem findGo_normal (s : ListState) (p : Nat → Bool) (f cur : Nat)
    (h1 : ¬(cur = NULL_PTR ∨ cur = DELETING_MARK))
    (h2 : ¬(s.mem cur = NULL_LINK ∨ (unpack_links (s.mem cur)).next = DELETING_MARK)) :
    findGo s p (f + 1) cur =
      if p cur then some cur else findGo s p f (unpack_links (s.mem cur)).next := by
  match f with
  | 0 => rw [findGo_one, if_neg h1, if_neg h2]
  | f + 1 => rw [findGo_two, if_neg h1, if_neg h2]

theorem findGo_recover (s : ListState) (p : Nat → Bool) (f cur : Nat)
    (h1 : ¬(cur = NULL_PTR ∨ cur = DELETING_MARK))
    (h2 : s.mem cur = NULL_LINK ∨ (unpack_links (s.mem cur)).next = DELETING_MARK) :
    findGo s p (f + 1) cur = findGo s p (f - 1) s.head := by
  match f with
  | 0 => rw [findGo_one, if_neg h1, if_pos h2]; rfl
  | f + 1 =>
    rw [findGo_two, if_neg h1, if_pos h2]
    rfl

theorem findGo_all_null (s : ListState) (p : Nat → Bool)
    (hhead : s.mem s.head = NULL_LINK) :
    ∀ fuel cur, s.mem cur = NULL_LINK → findGo s p fuel cur = none := by
  intro fuel
  induction fuel using Nat.strong_induction_on with
  | _ fuel ih =>
    match fuel with
    | 0 => intro cur _; rfl
    | f + 1 =>
      intro cur hcur
      by_cases hcs : cur = NULL_PTR ∨ cur = DELETING_MARK
      · exact findGo_sentinel s p _ cur hcs
      · rw [findGo_recover s p f cur hcs (Or.inl hcur)]
        match f with
        | 0 => rfl
        | f' + 1 => exact ih f' (by omega) s.head hhead

theorem seg_words_nonnull (cap : Nat) (s : ListState) (hcap : cap ≤ DELETING_MARK) :
    ∀ (d : List Nat) (q : Nat), chainSeg s q d NULL_PTR → (∀ i ∈ d, i < cap) →
      q < cap → ∀ i ∈ d, s.mem i ≠ NULL_LINK := by
  intro d
  induction d with
  | nil => intro q _ _ _ i hi; cases hi
  | cons j rest ih =>
    intro q hseg hb hq i hi
    obtain ⟨⟨nv, pv, hw⟩, hrest⟩ := hseg
    have hq30 : q < 2 ^ 30 := by rw [DELETING_MARK_lit] at hcap; omega
    have hqN : q ≠ NULL_PTR := by rw [NULL_PTR_lit]; rw [DELETING_MARK_lit] at hcap; omega
    rcases List.mem_cons.1 hi with rfl | hir
    · rw [hw]
      exact pack_ne_null_of_prev _ _ _ _ hq30 hqN
    · exact ih j hrest (fun a ha => hb a (List.mem_cons_of_mem _ ha)) (hb j (by simp)) i hir

theorem findGo_walk (cap : Nat) (s : ListState) (p : Nat → Bool) (hcap : cap ≤ DELETING_MARK) :
    ∀ (d : List Nat) (q fuel : Nat), chainSeg s q d NULL_PTR → (∀ i ∈ d, i < cap) →
      (∀ i ∈ d, s.mem i ≠ NULL_LINK) → d.length ≤ fuel →
      findGo s p fuel (d.headD NULL_PTR) = d.find? p := by
  intro d
  induction d with
  | nil =>
    intro q fuel _ _ _ _
    exact findGo_sentinel s p fuel _ (Or.inl rfl)
  | cons j rest ih =>
    intro q fuel hseg hb hnn hlen
    obtain ⟨⟨nv, pv, hw⟩, hrest⟩ := hseg
    match fuel with
    | 0 => simp at hlen
    | f + 1 =>
      have hjf := member_facts cap j (j :: rest) hcap hb (by simp)
      have hbrest : ∀ a ∈ rest, a < cap := fun a ha => hb a (List.mem_cons_of_mem _ ha)
      have hNor : rest.headD NULL_PTR = NULL_PTR ∨ rest.headD NULL_PTR ∈ rest := by
        cases rest with
        | nil => exact Or.inl rfl
        | cons a t => exact Or.inr (headD_mem _ _ (by simp))
      have hNf := nb_facts cap (rest.headD NULL_PTR) rest hcap hbrest hNor
      have hnext : (unpack_links (s.mem j)).next = rest.headD NULL_PTR := by
        rw [hw, unpack_pack]
        exact Nat.mod_eq_of_lt hNf.1
      show findGo s p (f + 1) j = _
      rw [findGo_normal s p f j (by push_neg; exact ⟨hjf.2.2, hjf.2.1⟩)
        (by rw [hnext]; push_neg; exact ⟨hnn j (by simp), hNf.2⟩), hnext]
      by_cases hpj : p j
      · simp [hpj, List.find?_cons]
      · simp only [hpj, if_false]
        rw [ih j f hrest hbrest (fun a ha => hnn a (List.mem_cons_of_mem _ ha))
          (by simpa using hlen)]
        simp [List.find?_cons, hpj]

/-! ## The claims -/

set_option maxRecDepth 100000

/-- C1: in every quiescent state reachable by sequentially applying the
public operations from the empty list, the chains are mutually
consistent: `head = NULL_PTR` iff `tail = NULL_PTR`; for every live node
`N` whose `next` names a node `M`, the `prev` of `M` equals `index_of N`
(and symmetrically for `prev`); and the `prev` of the head node and the
`next` of the tail node are `NULL_PTR`. -/
theorem c1_quiescent_chain_consistency (cap : Nat) (s : ListState)
    (hcap : cap ≤ DELETING_MARK) (h : Reaches cap s) : Consistent cap s :=
  inv_consistent cap s hcap (reaches_inv cap s hcap h)

theorem c1_witness :
    Consistent 4 (push_back (push_back emptyList 0).1 1).1 :=
  c1_quiescent_chain_consistency 4 _ (by decide)
    (Reaches.push_back_step _ 1
      (Reaches.push_back_step _ 0 Reaches.init (by decide) (by decide))
      (by decide) (by decide))

/-- Slot `i` of the test region holds the value `i + 1` (the claims talk
about elements by their values 1,2,3,4). -/
def item_value (i : Nat) : Nat := i + 1

def c4_state : ListState :=
  (push_back (push_back (push_back (push_back emptyList 0).1 1).1 2).1 3).1

/-- C4: four successful `push_back` calls with values 1,2,3,4 produce a
list whose forward traversal visits [1,2,3,4] and whose reverse
traversal visits [4,3,2,1]. -/
theorem c4_sequential_spine :
    (push_back emptyList 0).2 = true ∧
    (push_back (push_back emptyList 0).1 1).2 = true ∧
    (push_back (push_back (push_back emptyList 0).1 1).1 2).2 = true ∧
    (push_back (push_back (push_back (push_back emptyList 0).1 1).1 2).1 3).2 = true ∧
    (forward_traverse c4_state 10).map (List.map item_value) = some [1, 2, 3, 4] ∧
    (reverse_traverse c4_state 10).map (List.map item_value) = some [4, 3, 2, 1] := by
  decide

/-- C5: the word installed by the committing compare-exchange of `remove` is a
tombstone whose `next` field is `DELETING_MARK`, whose `prev` field is
the observed `prev`, whose `next_version` is the observed one plus one
modulo `2 ^ VERSION_BITS_PER_LINK`, and whose `prev_version` is
unchanged. -/
theorem c5_tombstone_fields (w : Nat) :
    unpack_links (remove_tombstone w) =
      ⟨DELETING_MARK, (unpack_links w).prev,
        ((unpack_links w).next_version + 1) % 2 ^ VERSION_BITS_PER_LINK,
        (unpack_links w).prev_version⟩ := by
  simp only [remove_tombstone, unpack_links_lit, pack_links_lit, DELETING_MARK_lit,
    Link_pack.mk.injEq, VB_pow]
  refine ⟨?_, ?_, ?_, ?_⟩ <;> omega

/-- C6: once `remove x` has left the word of `x` at `NULL_LINK`, any further
sequential `remove x` returns null and changes nothing. -/
theorem c6_remove_removed_is_noop (s : ListState) (x : Nat)
    (h : s.mem x = NULL_LINK) :
    (remove s x).2 = none ∧ (remove s x).1.head = s.head ∧
    (remove s x).1.tail = s.tail ∧ (remove s x).1.size = s.size ∧
    ∀ i, (remove s x).1.mem i = s.mem i := by
  have hrun : remove s x = (s, none) := by simp [remove, h]
  rw [hrun]
  exact ⟨rfl, rfl, rfl, rfl, fun i => rfl⟩

theorem c6_witness :
    (remove emptyList 0).2 = none ∧ (remove emptyList 0).1.size = emptyList.size :=
  ⟨(c6_remove_removed_is_noop emptyList 0 rfl).1,
    (c6_remove_removed_is_noop emptyList 0 rfl).2.2.2.1⟩

/-- C7: an `insert_after` or `insert_before` that observes an anchor
word at `NULL_LINK` or with `next = DELETING_MARK` returns false and
leaves head, tail, size and every node but the new item unchanged. -/
theorem c7_insert_dead_anchor (s : ListState) (anchor x : Nat)
    (h : s.mem anchor = NULL_LINK ∨ (unpack_links (s.mem anchor)).next = DELETING_MARK) :
    ((insert_after s anchor x).2 = false ∧
      (insert_after s anchor x).1.head = s.head ∧
      (insert_after s anchor x).1.tail = s.tail ∧
      (insert_after s anchor x).1.size = s.size ∧
      (∀ i, i ≠ x → (insert_after s anchor x).1.mem i = s.mem i)) ∧
    ((insert_before s anchor x).2 = false ∧
      (insert_before s anchor x).1.head = s.head ∧
      (insert_before s anchor x).1.tail = s.tail ∧
      (insert_before s anchor x).1.size = s.size ∧
      (∀ i, i ≠ x → (insert_before s anchor x).1.mem i = s.mem i)) := by
  have hbef : insert_before s anchor x = ({ s with mem := upd s.mem x NULL_LINK }, false) := by
    rw [insert_before, MAX_RETRIES_succ, insert_before_loop_succ]
    rcases h with hN | hD
    · simp [insert_before_go, hN]
    · simp [insert_before_go, hD]
  constructor
  · by_cases hN : s.mem anchor = NULL_LINK
    · have hrun : insert_after s anchor x = (s, false) := by simp [insert_after, hN]
      rw [hrun]
      exact ⟨rfl, rfl, rfl, rfl, fun i _ => rfl⟩
    · have hD := h.resolve_left hN
      have hrun : insert_after s anchor x =
          ({ s with mem := upd s.mem x NULL_LINK }, false) := by
        rw [insert_after, if_neg hN, MAX_RETRIES_succ, insert_after_loop_succ]
        simp [insert_after_go, hD]
      rw [hrun]
      exact ⟨rfl, rfl, rfl, rfl, fun i hi => upd_ne _ _ _ _ hi⟩
  · rw [hbef]
    exact ⟨rfl, rfl, rfl, rfl, fun i hi => upd_ne _ _ _ _ hi⟩

def c7_state : ListState :=
  { mem := upd (fun _ => NULL_LINK) 0 (pack_links DELETING_MARK NULL_PTR 0 0),
    head := NULL_PTR, tail := NULL_PTR, size := 0 }

theorem c7_witness :
    ((insert_after c7_state 0 1).2 = false ∧ (insert_after c7_state 0 1).1.head = c7_state.head) ∧
    ((insert_before c7_state 0 1).2 = false ∧ (insert_before c7_state 0 1).1.mem 2 = c7_state.mem 2) :=
  ⟨⟨(c7_insert_dead_anchor c7_state 0 1 (Or.inr (by decide))).1.1,
    (c7_insert_dead_anchor c7_state 0 1 (Or.inr (by decide))).1.2.1⟩,
   ⟨(c7_insert_dead_anchor c7_state 0 1 (Or.inr (by decide))).2.1,
    (c7_insert_dead_anchor c7_state 0 1 (Or.inr (by decide))).2.2.2.2.2 2 (by decide)⟩⟩

/-- C9: pre-increment on an iterator where the word of the current node is
`NULL_LINK` sets `prev` to the old current node, sets `current` to null,
and returns without raising `Iterator_invalidated` (the result is
`some`, never the error value). -/
theorem c9_inc_on_removed_current (s : ListState) (it : Iter) (c : Nat)
    (hc : it.current = some c) (h : s.mem c = NULL_LINK) :
    iter_inc s it = some ⟨some c, none⟩ := by
  simp [iter_inc, hc, h]

theorem c9_witness : iter_inc emptyList ⟨none, some 0⟩ = some ⟨some 0, none⟩ :=
  c9_inc_on_removed_current emptyList ⟨none, some 0⟩ 0 rfl rfl

/-- C10: over in-range field values, `pack_links` hits the reserved
whole-word sentinel `NULL_LINK` exactly on
(`NULL_PTR`, `NULL_PTR`, 3, 3); hence an isolated live node whose two
version counters are both 3 has a word bit-identical to the
removed-and-finalised sentinel, and `is_null` reports it as removed. -/
theorem c10_null_link_aliasing (next prev nv pv : Nat)
    (hn : next < 2 ^ LINK_BITS) (hp : prev < 2 ^ LINK_BITS)
    (ha : nv < 2 ^ VERSION_BITS_PER_LINK) (hb : pv < 2 ^ VERSION_BITS_PER_LINK) :
    (pack_links next prev nv pv = NULL_LINK ↔
      next = NULL_PTR ∧ prev = NULL_PTR ∧ nv = 3 ∧ pv = 3) ∧
    node_is_null (pack_links NULL_PTR NULL_PTR 3 3) = true := by
  constructor
  · rw [pack_eq_null_iff, Nat.mod_eq_of_lt (show next < 2 ^ 30 from hn),
      Nat.mod_eq_of_lt (show prev < 2 ^ 30 from hp),
      Nat.mod_eq_of_lt (show nv < 4 from ha), Nat.mod_eq_of_lt (show pv < 4 from hb)]
  · decide

theorem c10_witness :
    (pack_links NULL_PTR NULL_PTR 3 3 = NULL_LINK ↔
      NULL_PTR = NULL_PTR ∧ NULL_PTR = NULL_PTR ∧ (3 : Nat) = 3 ∧ (3 : Nat) = 3) ∧
    node_is_null (pack_links NULL_PTR NULL_PTR 3 3) = true :=
  c10_null_link_aliasing NULL_PTR NULL_PTR 3 3 (by decide) (by decide) (by decide) (by decide)

/-! ### C2: `find` against the retry budget -/

def find_miss_state : ListState :=
  (List.range 101).foldl (fun s i => (push_back s i).1) emptyList

/-- C2 counterexample: a reachable quiescent list of 101 elements (built
by 101 `push_back` calls) in which only the element at position 100
satisfies the predicate.  `find` exhausts its retry budget after the
first `MAX_RETRIES` nodes and returns null, although a live,
non-tombstoned element satisfies the predicate. -/
theorem c2_counterexample :
    find find_miss_state (fun i => decide (i = 100)) = none ∧
    100 ∈ liveNodes 101 find_miss_state ∧
    find_miss_state.mem 100 ≠ NULL_LINK ∧
    (unpack_links (find_miss_state.mem 100)).next ≠ DELETING_MARK ∧
    (fun i => decide (i = 100)) 100 = true := by
  decide

/-- C2 amended: on a quiescent list of at most `MAX_RETRIES` elements,
`find` returns the first element in head-to-tail order, among nodes
whose link word is not `NULL_LINK`, that satisfies the predicate, and
null when no such element exists. -/
theorem c2_find_first_live_within_budget (cap : Nat) (s : ListState) (c : List Nat)
    (p : Nat → Bool) (hcap : cap ≤ DELETING_MARK) (hc : ChainInv cap s c)
    (hlen : c.length ≤ MAX_RETRIES) :
    find s p = (c.filter fun i => decide (s.mem i ≠ NULL_LINK)).find? p := by
  cases c with
  | nil =>
    rw [find, hc.head_eq]
    exact (findGo_sentinel s p MAX_RETRIES (([] : List Nat).headD NULL_PTR) (Or.inl rfl)).trans rfl
  | cons a t =>
    obtain ⟨⟨nv, pv, hw⟩, ht⟩ := hc.links
    by_cases hnn : s.mem a = NULL_LINK
    · have ht0 : t = [] := by
        rcases t with _ | ⟨b, t'⟩
        · rfl
        · exfalso
          rw [hw, pack_eq_null_iff] at hnn
          have hb := hc.bounded b (by simp)
          have hb2 : b % 2 ^ 30 = NULL_PTR := hnn.1
          rw [DELETING_MARK_lit] at hcap
          rw [NULL_PTR_lit, Nat.mod_eq_of_lt (by omega)] at hb2
          omega
      subst ht0
      have hhead : s.mem s.head = NULL_LINK := by
        rw [hc.head_eq]
        exact hnn
      rw [find, findGo_all_null s p hhead MAX_RETRIES s.head hhead]
      simp [hnn]
    · have hall : ∀ i ∈ a :: t, s.mem i ≠ NULL_LINK := by
        intro i hi
        rcases List.mem_cons.1 hi with rfl | hit
        · exact hnn
        · exact seg_words_nonnull cap s hcap t a ht
            (fun j hj => hc.bounded j (by simp [hj])) (hc.bounded a (by simp)) i hit
      have hfilter : (a :: t).filter (fun i => decide (s.mem i ≠ NULL_LINK)) = a :: t := by
        rw [List.filter_eq_self]
        intro i hi
        simpa using hall i hi
      rw [hfilter, find, hc.head_eq]
      exact findGo_walk cap s p hcap (a :: t) NULL_PTR MAX_RETRIES hc.links hc.bounded hall hlen

def c2_small_state : ListState := (push_back (push_back emptyList 0).1 1).1

theorem c2_witness :
    find c2_small_state (fun i => decide (i = 1)) = some 1 := by
  have h := c2_find_first_live_within_budget 4 c2_small_state [0, 1]
    (fun i => decide (i = 1)) (by decide)
    ⟨by decide, by decide, by decide, by decide, by decide,
      ⟨1, 0, by decide⟩, ⟨0, 0, by decide⟩, trivial⟩ (by decide)
  rw [h]
  decide

/-! ### C3: failure invalidates the new node -/

theorem push_front_false_invalidates (s : ListState) (x : Nat)
    (hf : (push_front s x).2 = false) : (push_front s x).1.mem x = NULL_LINK := by
  by_cases h1 : s.head = NULL_PTR
  · exfalso
    simp [push_front, h1] at hf
  · by_cases h2 : upd s.mem x (pack_links s.head NULL_PTR 0 0) s.head = NULL_LINK
    · simp only [upd] at h2
      simp [push_front, h1, h2, upd]
    · simp only [upd] at h2
      exfalso
      simp [push_front, h1, h2, upd] at hf

theorem push_back_false_invalidates (s : ListState) (x : Nat)
    (hf : (push_back s x).2 = false) : (push_back s x).1.mem x = NULL_LINK := by
  by_cases h1 : s.tail = NULL_PTR
  · exfalso
    simp [push_back, h1] at hf
  · by_cases h2 : upd s.mem x (pack_links NULL_PTR s.tail 0 0) s.tail = NULL_LINK
    · simp only [upd] at h2
      simp [push_back, h1, h2, upd]
    · simp only [upd] at h2
      exfalso
      simp [push_back, h1, h2, upd] at hf

theorem insert_after_go_false (anchor x : Nat) (retry : ListState → ListState × Bool)
    (s : ListState)
    (hretry : ∀ s', (retry s').2 = false → (retry s').1.mem x = NULL_LINK)
    (hf : (insert_after_go anchor x retry s).2 = false) :
    (insert_after_go anchor x retry s).1.mem x = NULL_LINK := by
  simp only [insert_after_go] at hf ⊢
  split_ifs at hf ⊢ <;>
    first
    | exact upd_same _ _ _
    | exact hretry _ hf
    | simp at hf

theorem insert_after_loop_false (anchor x : Nat) :
    ∀ (fuel : Nat) (s : ListState), (insert_after_loop anchor x fuel s).2 = false →
      (insert_after_loop anchor x fuel s).1.mem x = NULL_LINK := by
  intro fuel
  induction fuel with
  | zero => intro s _; exact upd_same _ _ _
  | succ fuel ih =>
    intro s hf
    rw [insert_after_loop_succ] at hf ⊢
    exact insert_after_go_false anchor x _ s (fun s' => ih s') hf

theorem insert_before_go_false (anchor x : Nat) (retry : ListState → ListState × Bool)
    (s : ListState)
    (hretry : ∀ s', (retry s').2 = false → (retry s').1.mem x = NULL_LINK)
    (hf : (insert_before_go anchor x retry s).2 = false) :
    (insert_before_go anchor x retry s).1.mem x = NULL_LINK := by
  simp only [insert_before_go] at hf ⊢
  split_ifs at hf ⊢ <;>
    first
    | exact upd_same _ _ _
    | exact hretry _ hf
    | simp at hf

theorem insert_before_loop_false (anchor x : Nat) :
    ∀ (fuel : Nat) (s : ListState), (insert_before_loop anchor x fuel s).2 = false →
      (insert_before_loop anchor x fuel s).1.mem x = NULL_LINK := by
  intro fuel
  induction fuel with
  | zero => intro s _; exact upd_same _ _ _
  | succ fuel ih =>
    intro s hf
    rw [insert_before_loop_succ] at hf ⊢
    exact insert_before_go_false anchor x _ s (fun s' => ih s') hf

def c3_state : ListState :=
  { mem := upd (fun _ => NULL_LINK) 1 42, head := NULL_PTR, tail := NULL_PTR, size := 0 }

/-- C3 counterexample: the initial `is_null` check of `insert_after` on the
anchor returns false before the node of the new item is ever touched, so
on that path the word of the new item is left as it was — here 42, not
`NULL_LINK`. -/
theorem c3_counterexample :
    (insert_after c3_state 0 1).2 = false ∧
    (insert_after c3_state 0 1).1.mem 1 ≠ NULL_LINK := by
  decide

/-- C3 amended: every failing `push_front`, `push_back` or
`insert_before` leaves the word of the new item at `NULL_LINK`, and so does
every failing `insert_after` whose initial anchor `is_null` check did
not fire; when that initial check observes the anchor at `NULL_LINK`,
`insert_after` returns false leaving the entire state — the word of the
new item included — unchanged. -/
theorem c3_failure_invalidates (s : ListState) (anchor x : Nat) :
    ((push_front s x).2 = false → (push_front s x).1.mem x = NULL_LINK) ∧
    ((push_back s x).2 = false → (push_back s x).1.mem x = NULL_LINK) ∧
    ((insert_before s anchor x).2 = false → (insert_before s anchor x).1.mem x = NULL_LINK) ∧
    (s.mem anchor ≠ NULL_LINK → (insert_after s anchor x).2 = false →
      (insert_after s anchor x).1.mem x = NULL_LINK) ∧
    (s.mem anchor = NULL_LINK → (insert_after s anchor x).1 = s ∧
      (insert_after s anchor x).2 = false) := by
  refine ⟨push_front_false_invalidates s x, push_back_false_invalidates s x, ?_, ?_, ?_⟩
  · intro hf
    rw [insert_before] at hf ⊢
    exact insert_before_loop_false anchor x MAX_RETRIES s hf
  · intro hN hf
    rw [insert_after, if_neg hN] at hf ⊢
    exact insert_after_loop_false anchor x MAX_RETRIES s hf
  · intro hN
    have hrun : insert_after s anchor x = (s, false) := by simp [insert_after, hN]
    rw [hrun]
    exact ⟨rfl, rfl⟩

def c3_fail_state : ListState :=
  { mem := fun _ => NULL_LINK, head := 0, tail := 0, size := 1 }

theorem c3_witness :
    (push_front c3_fail_state 1).1.mem 1 = NULL_LINK ∧
    (push_back c3_fail_state 1).1.mem 1 = NULL_LINK ∧
    (insert_before c3_fail_state 0 1).1.mem 1 = NULL_LINK ∧
    (insert_after c7_state 0 1).1.mem 1 = NULL_LINK ∧
    (insert_after c3_state 0 1).1 = c3_state :=
  ⟨(c3_failure_invalidates c3_fail_state 0 1).1 (by decide),
   (c3_failure_invalidates c3_fail_state 0 1).2.1 (by decide),
   (c3_failure_invalidates c3_fail_state 0 1).2.2.1 (by decide),
   (c3_failure_invalidates c7_state 0 1).2.2.2.1 (by decide) (by decide),
   ((c3_failure_invalidates c3_state 0 1).2.2.2.2 (by decide)).1⟩

/-! ### C8: removing the sole element -/

/-- The list holds exactly one element `x`: both anchors name `x` and
the decoded neighbour fields of `x` are both `NULL_PTR`. -/
def holdsExactlyOne (s : ListState) (x : Nat) : Prop :=
  s.head = x ∧ s.tail = x ∧
  (unpack_links (s.mem x)).next = NULL_PTR ∧ (unpack_links (s.mem x)).prev = NULL_PTR

def c8_s1 : ListState := (push_back emptyList 0).1

def c8_s2 : ListState := (push_back c8_s1 1).1

def c8_s3 : ListState := (push_back c8_s2 2).1

def c8_s4 : ListState := (remove c8_s3 1).1

def c8_s5 : ListState := (remove c8_s4 2).1

def c8_s6 : ListState := (push_front c8_s5 3).1

def c8_s7 : ListState := (push_front c8_s6 4).1

def c8_s8 : ListState := (remove c8_s7 3).1

def c8_alias_state : ListState := (remove c8_s8 4).1

theorem c8_alias_reachable : Reaches 5 c8_alias_state :=
  Reaches.remove_step _ 4
    (Reaches.remove_step _ 3
      (Reaches.push_front_step _ 4
        (Reaches.push_front_step _ 3
          (Reaches.remove_step _ 2
            (Reaches.remove_step _ 1
              (Reaches.push_back_step _ 2
                (Reaches.push_back_step _ 1
                  (Reaches.push_back_step _ 0 Reaches.init (by decide) (by decide))
                  (by decide) (by decide))
                (by decide) (by decide))
              (by decide))
            (by decide))
          (by decide) (by decide))
        (by decide) (by decide))
      (by decide))
    (by decide)

/-- C8 counterexample: a state reachable by nine legal operations holds
exactly one element (slot 0 is both head and tail, with no neighbours),
yet its link word — version counters having wrapped to (3, 3) — is
bit-identical to `NULL_LINK`, so `remove` returns null and leaves
`head = tail = 0` instead of clearing the anchors. -/
theorem c8_counterexample :
    holdsExactlyOne c8_alias_state 0 ∧
    (remove c8_alias_state 0).2 ≠ some 0 ∧
    (remove c8_alias_state 0).1.head ≠ NULL_PTR ∧
    (remove c8_alias_state 0).1.tail ≠ NULL_PTR := by
  unfold holdsExactlyOne
  decide

/-- C8 amended: if the list holds exactly one element `x` whose link
word is not the aliased sentinel value `NULL_LINK`, then `remove x`
returns `x`, and afterwards `head = NULL_PTR`, `tail = NULL_PTR` and
the link word of `x` is `NULL_LINK`. -/
theorem c8_remove_sole_element (s : ListState) (x : Nat)
    (h : holdsExactlyOne s x) (hnn : s.mem x ≠ NULL_LINK) :
    (remove s x).2 = some x ∧ (remove s x).1.head = NULL_PTR ∧
    (remove s x).1.tail = NULL_PTR ∧ (remove s x).1.mem x = NULL_LINK := by
  obtain ⟨hh, ht, hnx, hpx⟩ := h
  have hrun : remove s x = (remove_committed s x (s.mem x) NULL_PTR NULL_PTR, some x) := by
    simp only [remove]
    rw [if_neg hnn, hnx, hpx, if_neg NP_ne_DM]
  rw [hrun]
  refine ⟨rfl, ?_, ?_, ?_⟩
  · simp [remove_committed, hh]
  · simp [remove_committed, ht]
  · simp [remove_committed, upd]

theorem c8_witness :
    (remove c8_s1 0).2 = some 0 ∧ (remove c8_s1 0).1.head = NULL_PTR ∧
    (remove c8_s1 0).1.tail = NULL_PTR ∧ (remove c8_s1 0).1.mem 0 = NULL_LINK :=
  c8_remove_sole_element c8_s1 0 ⟨by decide, by decide, by decide, by decide⟩ (by decide)

end LFL
